import Mathlib

/-!
Verification of the heapfree intrusive chain (sentinel-based circular
doubly-linked list) and its event layer.

The embedding models memory as a heap mapping node addresses (`Nat`) to
the two-pointer `chain_ptr` cell of the C++ source
(`include/hardwave/heapfree/chain.hpp`).  A null pointer is `none`.
Payloads live in a separate value map.  Every operation is translated
statement by statement in the evaluation order of the C++ code; a
`none` result of an operation marks the fatal-assert / undefined-deref
path (`HEAPFREE_ASSERT` aborting, or a null dereference).
-/

namespace Heapfree

/-- The two-pointer link cell (`struct chain_ptr`): `next`/`prev`,
both possibly null (`none`). -/
structure chain_ptr where
  next : Option Nat
  prev : Option Nat
deriving DecidableEq, Repr

/-- Memory: every address holds a link cell. -/
abbrev Heap := Nat → chain_ptr

/-- Payload memory for segments (payload type fixed to `Int`). -/
abbrev Vals := Nat → Int

/-- Program state: link cells plus payload values. -/
structure State where
  ptrs : Heap
  vals : Vals

/-- Heap update at a single address. -/
def hupd (h : Heap) (a : Nat) (p : chain_ptr) : Heap :=
  fun x => if x = a then p else h x

/-- Value-map update at a single address. -/
def vupd (v : Vals) (a : Nat) (x : Int) : Vals :=
  fun y => if y = a then x else v y

/-- Write only the `next` field of the cell at `a`. -/
def set_next (h : Heap) (a : Nat) (v : Option Nat) : Heap :=
  hupd h a ⟨v, (h a).prev⟩

/-- Write only the `prev` field of the cell at `a`. -/
def set_prev (h : Heap) (a : Nat) (v : Option Nat) : Heap :=
  hupd h a ⟨(h a).next, v⟩

@[simp] theorem hupd_self (h : Heap) (a : Nat) (p : chain_ptr) : hupd h a p a = p := by
  simp [hupd]

theorem hupd_ne (h : Heap) {a x : Nat} (p : chain_ptr) (hx : x ≠ a) : hupd h a p x = h x := by
  simp [hupd, hx]

@[simp] theorem set_next_prev (h : Heap) (a : Nat) (v : Option Nat) (x : Nat) :
    (set_next h a v x).prev = (h x).prev := by
  by_cases hx : x = a <;> simp [set_next, hupd, hx]

@[simp] theorem set_prev_next (h : Heap) (a : Nat) (v : Option Nat) (x : Nat) :
    (set_prev h a v x).next = (h x).next := by
  by_cases hx : x = a <;> simp [set_prev, hupd, hx]

@[simp] theorem set_next_self (h : Heap) (a : Nat) (v : Option Nat) :
    (set_next h a v a).next = v := by
  simp [set_next, hupd]

@[simp] theorem set_prev_self (h : Heap) (a : Nat) (v : Option Nat) :
    (set_prev h a v a).prev = v := by
  simp [set_prev, hupd]

theorem set_next_ne (h : Heap) {a x : Nat} (v : Option Nat) (hx : x ≠ a) :
    set_next h a v x = h x := by
  simp [set_next, hupd, hx]

theorem set_prev_ne (h : Heap) {a x : Nat} (v : Option Nat) (hx : x ≠ a) :
    set_prev h a v x = h x := by
  simp [set_prev, hupd, hx]

/-! ## Ring well-formedness

`linkedPair h a b` states that `b` follows `a` in the ring: `a`'s
`next` points to `b` and `b`'s `prev` points back to `a` (the spec's
"a linked node's next->prev == node and prev->next == node").
`pathFrom h a l z` states that starting at `a`, the nodes of `l`
follow in order and the path closes at `z`.  `isRing h sent l` is the
spec's well-formedness of a chain whose sentinel is `sent` and whose
linked segments in traversal order are `l`. -/

def linkedPair (h : Heap) (a b : Nat) : Prop :=
  (h a).next = some b ∧ (h b).prev = some a

instance (h : Heap) (a b : Nat) : Decidable (linkedPair h a b) := by
  unfold linkedPair; infer_instance

def pathFrom (h : Heap) : Nat → List Nat → Nat → Prop
  | a, [], z => linkedPair h a z
  | a, b :: l, z => linkedPair h a b ∧ pathFrom h b l z

instance pathFrom.dec (h : Heap) (z : Nat) : ∀ (a : Nat) (l : List Nat),
    Decidable (pathFrom h a l z)
  | a, [] => inferInstanceAs (Decidable (linkedPair h a z))
  | a, b :: l =>
    haveI : Decidable (pathFrom h b l z) := pathFrom.dec h z b l
    inferInstanceAs (Decidable (linkedPair h a b ∧ pathFrom h b l z))

/-- Well-formed ring: from the sentinel `sent`, next/prev pointers walk
exactly the segments `l` in order and close back at the sentinel, and
all the nodes are distinct.  For `l = []` this is the empty-chain
invariant `next == prev == self`. -/
def isRing (h : Heap) (sent : Nat) (l : List Nat) : Prop :=
  pathFrom h sent l sent ∧ (sent :: l).Nodup

instance (h : Heap) (sent : Nat) (l : List Nat) : Decidable (isRing h sent l) := by
  unfold isRing; infer_instance

/-- The next-pointer projection of a path (used for the traversal loops
in `clear`, `size`, and `operator[]`, which only follow `next`). -/
def nextPath (h : Heap) : Nat → List Nat → Nat → Prop
  | a, [], z => (h a).next = some z
  | a, b :: l, z => (h a).next = some b ∧ nextPath h b l z

/-! ### Basic lemmas about paths -/

theorem pathFrom_congr (h h' : Heap) :
    ∀ (a : Nat) (l : List Nat) (z : Nat),
      (∀ x ∈ a :: l, (h' x).next = (h x).next) →
      (∀ x ∈ l ++ [z], (h' x).prev = (h x).prev) →
      pathFrom h a l z → pathFrom h' a l z
  | a, [], z, hn, hp, hpath => by
    obtain ⟨h1, h2⟩ := hpath
    exact ⟨(hn a (by simp)).trans h1, (hp z (by simp)).trans h2⟩
  | a, b :: l, z, hn, hp, hpath => by
    obtain ⟨⟨h1, h2⟩, hrest⟩ := hpath
    refine ⟨⟨(hn a (by simp)).trans h1, (hp b (by simp)).trans h2⟩, ?_⟩
    exact pathFrom_congr h h' b l z
      (fun x hx => hn x (by simpa using Or.inr (by simpa using hx)))
      (fun x hx => hp x (by simp at hx ⊢; tauto)) hrest

theorem pathFrom_append (h : Heap) :
    ∀ (l₁ : List Nat) (a b : Nat) (l₂ : List Nat) (z : Nat),
      pathFrom h a (l₁ ++ b :: l₂) z ↔ pathFrom h a l₁ b ∧ pathFrom h b l₂ z
  | [], a, b, l₂, z => by simp [pathFrom]
  | c :: l₁, a, b, l₂, z => by
    show linkedPair h a c ∧ pathFrom h c (l₁ ++ b :: l₂) z ↔
      (linkedPair h a c ∧ pathFrom h c l₁ b) ∧ pathFrom h b l₂ z
    rw [pathFrom_append h l₁ c b l₂ z]
    tauto

theorem pathFrom_last (h : Heap) :
    ∀ (a : Nat) (l : List Nat) (z : Nat), pathFrom h a l z →
      linkedPair h (l.getLastD a) z
  | a, [], z, hp => hp
  | a, b :: l, z, hp => by
    rw [List.getLastD_cons]
    exact pathFrom_last h b l z hp.2

theorem pathFrom_head (h : Heap) :
    ∀ (a : Nat) (l : List Nat) (z : Nat), pathFrom h a l z →
      (h a).next = some (l.headD z)
  | a, [], z, hp => hp.1
  | a, b :: l, z, hp => hp.1.1

theorem pathFrom_nextPath (h : Heap) :
    ∀ (a : Nat) (l : List Nat) (z : Nat), pathFrom h a l z → nextPath h a l z
  | a, [], z, hp => hp.1
  | a, b :: l, z, hp => ⟨hp.1.1, pathFrom_nextPath h b l z hp.2⟩

theorem nextPath_congr (h h' : Heap) :
    ∀ (a : Nat) (l : List Nat) (z : Nat),
      (∀ x ∈ a :: l, (h' x).next = (h x).next) →
      nextPath h a l z → nextPath h' a l z
  | a, [], z, hn, hp => (hn a (by simp)).trans hp
  | a, b :: l, z, hn, hp => by
    refine ⟨(hn a (by simp)).trans hp.1, ?_⟩
    exact nextPath_congr h h' b l z
      (fun x hx => hn x (by simp at hx ⊢; tauto)) hp.2

/-! ## Operations, translated from `chain.hpp`

Each definition mirrors the statements of the corresponding C++
member function in evaluation order.  `none` is the fatal-assert /
null-dereference path. -/

/-- Translation of `chain_segment::is_linked`: `next != nullptr`. -/
def chain_segment.is_linked (h : Heap) (s : Nat) : Bool :=
  (h s).next.isSome

/-- Translation of `chain_segment::fix_foreign_links`:
if unlinked, do nothing; else `next->prev = &ptrs(); prev->next = &ptrs();`.
The second statement dereferences `prev` (null gives `none`). -/
def chain_segment.fix_foreign_links (h : Heap) (s : Nat) : Option Heap :=
  match (h s).next with
  | none => some h
  | some nx =>
    let h1 := set_prev h nx (some s)
    match (h1 s).prev with
    | none => none
    | some pv => some (set_next h1 pv (some s))

/-- Translation of `chain_segment::unlink`: assert `is_linked()`, then
`next->prev = prev; prev->next = next; next = prev = nullptr;`. -/
def chain_segment.unlink (h : Heap) (s : Nat) : Option Heap :=
  match (h s).next with
  | none => none
  | some nx =>
    let h1 := set_prev h nx ((h s).prev)
    match (h1 s).prev with
    | none => none
    | some pv =>
      let h2 := set_next h1 pv ((h1 s).next)
      let h3 := set_next h2 s none
      some (set_prev h3 s none)

/-- Translation of the defaulted segment copy constructor
(`chain_segment(const me_t&) = default`): memberwise copy of the
`chain_ptr` base (both raw pointers) and the payload. -/
def chain_segment.copy_ctor (st : State) (dst src : Nat) : State :=
  ⟨hupd st.ptrs dst (st.ptrs src), vupd st.vals dst (st.vals src)⟩

/-- Translation of the defaulted segment copy assignment
(`operator=(const me_t&) = default`): same memberwise copy. -/
def chain_segment.copy_assign (st : State) (dst src : Nat) : State :=
  ⟨hupd st.ptrs dst (st.ptrs src), vupd st.vals dst (st.vals src)⟩

/-- Shared tail of the segment move operations: copy the link cell and
the payload from `src`, null out `src`, then `fix_foreign_links()` on
the destination. -/
def chain_segment.move_core (st : State) (dst src : Nat) : Option State :=
  let h1 := hupd st.ptrs dst (st.ptrs src)
  let v1 := vupd st.vals dst (st.vals src)
  let h2 := hupd h1 src ⟨none, none⟩
  (chain_segment.fix_foreign_links h2 dst).map fun h3 => ⟨h3, v1⟩

/-- Translation of the segment move constructor
(`chain_segment(me_t &&otr)`). -/
def chain_segment.move_ctor (st : State) (dst src : Nat) : Option State :=
  chain_segment.move_core st dst src

/-- Translation of the segment move assignment
(`operator=(me_t &&otr)`): `if (is_linked()) unlink();` first, then the
same steps as the move constructor. -/
def chain_segment.move_assign (st : State) (dst src : Nat) : Option State :=
  if chain_segment.is_linked st.ptrs dst then
    (chain_segment.unlink st.ptrs dst).bind fun h' =>
      chain_segment.move_core ⟨h', st.vals⟩ dst src
  else
    chain_segment.move_core st dst src

/-- Translation of `chain_segment::swap`: `std::swap` of the
`chain_ptr` bases and the payloads, then `fix_foreign_links()` on both
sides. -/
def chain_segment.swap (st : State) (a b : Nat) : Option State :=
  let h1 := hupd (hupd st.ptrs a (st.ptrs b)) b (st.ptrs a)
  let v1 := vupd (vupd st.vals a (st.vals b)) b (st.vals a)
  (chain_segment.fix_foreign_links h1 a).bind fun h2 =>
    (chain_segment.fix_foreign_links h2 b).map fun h3 => ⟨h3, v1⟩

/-- Translation of the segment destructor: `if (is_linked()) unlink();`. -/
def chain_segment.dtor (h : Heap) (s : Nat) : Option Heap :=
  if chain_segment.is_linked h s then chain_segment.unlink h s else some h

/-- Translation of `chain::link(it, seg)`: assert the segment is not
linked, capture `p = *it.ptrs().prev` and `n = it.ptrs()`, rewire
`sis.prev`, `sis.next`, `n.prev`, `p.next`, and return an iterator to
the newly linked segment (`unsafe_create(me(), seg)`, i.e. the node
`s` itself).  `pos` is the node the position iterator refers to (the
sentinel for `end()`). -/
def chain.link (h : Heap) (pos s : Nat) : Option (Heap × Nat) :=
  if chain_segment.is_linked h s then none
  else
    match (h pos).prev with
    | none => none
    | some p =>
      let h1 := set_prev h s (some p)
      let h2 := set_next h1 s (some pos)
      let h3 := set_prev h2 pos (some s)
      let h4 := set_next h3 p (some s)
      some (h4, s)

/-- Translation of `chain::link_back`: `link(end(), seg)`; `end()` is
the sentinel node. -/
def chain.link_back (h : Heap) (sent s : Nat) : Option (Heap × Nat) :=
  chain.link h sent s

/-- Translation of `chain::link_front`: `link(begin(), seg)`;
`begin()` dereferences the sentinel's `next`. -/
def chain.link_front (h : Heap) (sent s : Nat) : Option (Heap × Nat) :=
  match (h sent).next with
  | none => none
  | some b => chain.link h b s

/-- Translation of `chain::place(it, args...)`: construct a fresh
segment (all-null link cell, payload `v`) and `link` it. -/
def chain.place (st : State) (pos s : Nat) (v : Int) : Option (State × Nat) :=
  let h0 := hupd st.ptrs s ⟨none, none⟩
  let v0 := vupd st.vals s v
  (chain.link h0 pos s).map fun r => (⟨r.1, v0⟩, r.2)

/-- Translation of `chain::unlink(it)`: `auto r = std::next(it)`
(incrementing asserts the iterator is not `end()`, then follows
`next`), then `it.segment().unlink()`; returns the iterator past the
removed segment. -/
def chain.unlink (h : Heap) (sent s : Nat) : Option (Heap × Nat) :=
  if s = sent then none
  else
    match (h s).next with
    | none => none
    | some r => (chain_segment.unlink h s).map fun h' => (h', r)

/-- Loop body of `chain::clear`: walk `cur` along the saved `next`
pointers, nulling each visited cell, until the sentinel is reached.
Fuel bounds the walk (the C++ loop terminates because the ring is
finite; insufficient fuel or a null `cur->next` is `none`). -/
def chain.clear_loop (h : Heap) (sent : Nat) : Nat → Nat → Option Heap
  | _, 0 => none
  | cur, fuel + 1 =>
    if cur = sent then some h
    else
      match (h cur).next with
      | none => none
      | some nx => chain.clear_loop (hupd h cur ⟨none, none⟩) sent nx fuel

/-- Translation of `chain::clear`: save `cur = next`, make the
sentinel self-referential, then run the unlink-all loop. -/
def chain.clear (h : Heap) (sent : Nat) (fuel : Nat) : Option Heap :=
  match (h sent).next with
  | none => none
  | some c => chain.clear_loop (hupd h sent ⟨some sent, some sent⟩) sent c fuel

/-- Translation of the chain destructor: `clear()`. -/
def chain.dtor (h : Heap) (sent : Nat) (fuel : Nat) : Option Heap :=
  chain.clear h sent fuel

/-- Translation of `chain::fix_moved_ptrs`:
`next->prev = prev->next = &ptrs();` (`prev->next` is written first,
then `next->prev`; a null pointer dereference is `none`). -/
def chain.fix_moved_ptrs (h : Heap) (c : Nat) : Option Heap :=
  match (h c).prev with
  | none => none
  | some pv =>
    let h1 := set_next h pv (some c)
    match (h1 c).next with
    | none => none
    | some nx => some (set_prev h1 nx (some c))

/-- Translation of chain move assignment (`operator=(me_t &&otr)`):
`clear()`, then if the source is non-empty copy the sentinel cell,
`fix_moved_ptrs()`, and make the source sentinel self-referential. -/
def chain.move_assign (h : Heap) (dst src : Nat) (fuel : Nat) : Option Heap :=
  (chain.clear h dst fuel).bind fun h1 =>
    if (h1 src).next = some src then some h1
    else
      let h2 := hupd h1 dst (h1 src)
      (chain.fix_moved_ptrs h2 dst).map fun h3 =>
        hupd h3 src ⟨some src, some src⟩

/-- Translation of the chain move constructor
(`chain(me_t &&otr) : chain{} { me() = std::move(otr); }`): start from
a fresh empty chain, then move-assign. -/
def chain.move_ctor (h : Heap) (dst src : Nat) (fuel : Nat) : Option Heap :=
  chain.move_assign (hupd h dst ⟨some dst, some dst⟩) dst src fuel

/-- Walk performed by `std::advance` inside
`iterator_range::operator[]`: each step is `operator++`, which asserts
the iterator is not at `end()` before following `next`. -/
def chain.advance_loop (h : Heap) (sent : Nat) : Nat → Nat → Option Nat
  | cur, 0 => some cur
  | cur, n + 1 =>
    if cur = sent then none
    else
      match (h cur).next with
      | none => none
      | some nx => chain.advance_loop h sent nx n

/-- Translation of `chain::operator[](idx)`
(via `iterator_range{me()}[idx]`): start at `begin()` (the sentinel's
`next`), advance `idx` times, then dereference — `segment()` asserts
the iterator is not at `end()`. -/
def chain.nth (h : Heap) (sent : Nat) (idx : Nat) : Option Nat :=
  match (h sent).next with
  | none => none
  | some b =>
    match chain.advance_loop h sent b idx with
    | none => none
    | some cur => if cur = sent then none else some cur

/-- Traversal loop of `chain::segments()` iteration: collect the nodes
from `cur` until the sentinel. -/
def chain.seg_list_loop (h : Heap) (sent : Nat) : Nat → Nat → Option (List Nat)
  | _, 0 => none
  | cur, fuel + 1 =>
    if cur = sent then some []
    else
      match (h cur).next with
      | none => none
      | some nx => (chain.seg_list_loop h sent nx fuel).map (cur :: ·)

/-- The list of segments of a chain in `segments()` traversal order
(walking `next` from `begin()` to `end()`). -/
def chain.seg_list (h : Heap) (sent : Nat) (fuel : Nat) : Option (List Nat) :=
  match (h sent).next with
  | none => none
  | some b => chain.seg_list_loop h sent b fuel

/-- Translation of `chain::size`: `std::distance(begin(), end())`,
i.e. the length of the traversal. -/
def chain.size (h : Heap) (sent : Nat) (fuel : Nat) : Option Nat :=
  (chain.seg_list h sent fuel).map List.length

/-- Translation of `chain::empty`: `next == &ptrs()`. -/
def chain.empty (h : Heap) (sent : Nat) : Bool :=
  (h sent).next = some sent

/-! ## The event layer (`event.hpp`)

The two listener chains (`member_listeners`, `listeners`) are
abstracted as the lists of handler nodes in ring order (an `event` owns
two chains; `segments()` iteration yields the handlers in registration
order, since `on` uses `link_back`). -/

/-- Translation of `class event`: holds the two listener chains as
handler lists in ring order. -/
structure event where
  member_listeners : List Nat
  listeners : List Nat

/-- Translation of `try_fire`: invoke every handler of
`member_listeners` then of `listeners` (the first component lists the
invoked handlers in call order), and return
`size(listeners) > 0 || size(member_listeners) > 0`. -/
def try_fire (ev : event) : List Nat × Bool :=
  (ev.member_listeners ++ ev.listeners,
    decide (ev.listeners.length > 0) || decide (ev.member_listeners.length > 0))

/-- Translation of `fire`: `HEAPFREE_ASSERT(try_fire(ev, ...))` — the
fatal-assert path (`none`) when `try_fire` returns false. -/
def fire (ev : event) : Option (List Nat) :=
  let r := try_fire ev
  if r.2 then some r.1 else none

/-! ## Path surgery lemmas -/

theorem getLastD_mem (a : Nat) : ∀ (l : List Nat), l.getLastD a ∈ a :: l
  | [] => by simp
  | b :: l => by
    rw [List.getLastD_cons]
    have := getLastD_mem b l
    simp at this ⊢
    tauto

theorem headD_mem (a : Nat) (l : List Nat) : l.headD a ∈ a :: l := by
  cases l <;> simp

/-- Cutting a ring walk at an interior point: the part up to the head
of `l₂`, and the part from the node before it. -/
theorem pathFrom_split_at (h : Heap) (sent : Nat) (l₁ l₂ : List Nat)
    (hpath : pathFrom h sent (l₁ ++ l₂) sent) :
    pathFrom h sent l₁ (l₂.headD sent) ∧ pathFrom h (l₁.getLastD sent) l₂ sent := by
  cases l₂ with
  | nil =>
    simp only [List.append_nil] at hpath
    exact ⟨by simpa using hpath, pathFrom_last h sent l₁ sent hpath⟩
  | cons b t =>
    obtain ⟨h1, h2⟩ := (pathFrom_append h l₁ sent b t sent).mp hpath
    exact ⟨h1, pathFrom_last h sent l₁ b h1, h2⟩

/-- Glueing two walks that share the boundary nodes back into one. -/
theorem pathFrom_glue (h : Heap) (sent : Nat) (l₁ l₂ : List Nat)
    (h1 : pathFrom h sent l₁ (l₂.headD sent))
    (h2 : pathFrom h (l₁.getLastD sent) l₂ sent) :
    pathFrom h sent (l₁ ++ l₂) sent := by
  cases l₂ with
  | nil => simpa using h1
  | cons b t => exact (pathFrom_append h l₁ sent b t sent).mpr ⟨h1, h2.2⟩

/-- Rewiring the end of a walk: the same interior but the final link now
points at `z'` instead of `z`. -/
theorem pathFrom_retarget (h h' : Heap) (a : Nat) (l : List Nat) (z z' : Nat)
    (hpath : pathFrom h a l z)
    (hnd : (a :: l).Nodup)
    (hnext : ∀ x ∈ a :: l, x ≠ l.getLastD a → (h' x).next = (h x).next)
    (hlast : (h' (l.getLastD a)).next = some z')
    (hprev : ∀ x ∈ l, (h' x).prev = (h x).prev)
    (hz' : (h' z').prev = some (l.getLastD a)) :
    pathFrom h' a l z' := by
  rcases List.eq_nil_or_concat l with rfl | ⟨l₀, q, rfl⟩
  · exact ⟨hlast, hz'⟩
  · simp only [List.concat_eq_append] at hpath hnd hnext hlast hprev hz' ⊢
    have hq : (l₀ ++ [q]).getLastD a = q := by
      simp [List.getLastD_concat]
    rw [hq] at hlast hz'
    obtain ⟨hfront, _⟩ := (pathFrom_append h l₀ a q [] z).mp (by simpa using hpath)
    refine (pathFrom_append h' l₀ a q [] z').mpr ⟨?_, hlast, hz'⟩
    have hqni : q ∉ a :: l₀ := by
      have := hnd
      simp [List.nodup_cons, List.nodup_append] at this
      simp
      tauto
    refine pathFrom_congr h h' a l₀ q ?_ ?_ hfront
    · intro x hx
      refine hnext x ?_ ?_
      · simp at hx ⊢; tauto
      · rw [hq]; intro hxq; exact hqni (hxq ▸ hx)
    · intro x hx
      apply hprev
      simp at hx ⊢
      tauto

/-- Rewiring the start of a walk: the same interior but the first node
is now reached from `a'` instead of `a`. -/
theorem pathFrom_restart (h h' : Heap) (a a' : Nat) (l : List Nat) (z : Nat)
    (hpath : pathFrom h a l z)
    (hnd : (l ++ [z]).Nodup)
    (hnext : ∀ x ∈ l, (h' x).next = (h x).next)
    (hprev : ∀ x ∈ l ++ [z], x ≠ l.headD z → (h' x).prev = (h x).prev)
    (hhead : (h' (l.headD z)).prev = some a')
    (ha' : (h' a').next = some (l.headD z)) :
    pathFrom h' a' l z := by
  cases l with
  | nil => exact ⟨ha', hhead⟩
  | cons b t =>
    simp only [List.headD_cons] at hhead ha'
    refine ⟨⟨ha', hhead⟩, ?_⟩
    have hbni : b ∉ t ++ [z] := by
      simp [List.nodup_cons] at hnd
      simp
      tauto
    refine pathFrom_congr h h' b t z ?_ ?_ hpath.2
    · intro x hx
      apply hnext
      simp at hx ⊢; tauto
    · intro x hx
      refine hprev x (by simp at hx ⊢; tauto) ?_
      simp only [List.headD_cons]
      intro hxb; exact hbni (hxb ▸ hx)

/-! ## Characterizations of the operations on well-formed inputs -/

/-- The heap produced by a successful `chain::link`. -/
def chain.link_result (h : Heap) (pos p s : Nat) : Heap :=
  set_next (set_prev (set_next (set_prev h s (some p)) s (some pos)) pos (some s)) p (some s)

theorem chain.link_eq (h : Heap) (pos p s : Nat)
    (hs : (h s).next = none) (hp : (h pos).prev = some p) :
    chain.link h pos s = some (chain.link_result h pos p s, s) := by
  simp [chain.link, chain_segment.is_linked, hs, hp, chain.link_result]

theorem chain.link_result_self (h : Heap) (pos p s : Nat)
    (hsp : s ≠ p) (hspos : s ≠ pos) :
    chain.link_result h pos p s s = ⟨some pos, some p⟩ := by
  rw [chain.link_result, set_next_ne _ _ hsp, set_prev_ne _ _ hspos]
  simp [set_next, set_prev, hupd]

theorem chain.link_result_next (h : Heap) (pos p s x : Nat) (hxs : x ≠ s) :
    (chain.link_result h pos p s x).next = if x = p then some s else (h x).next := by
  by_cases hxp : x = p
  · subst hxp
    simp [chain.link_result]
  · rw [chain.link_result, set_next_ne _ _ hxp, set_prev_next, set_next_ne _ _ hxs,
      set_prev_next, if_neg hxp]

theorem chain.link_result_prev (h : Heap) (pos p s x : Nat) (hxs : x ≠ s) :
    (chain.link_result h pos p s x).prev = if x = pos then some s else (h x).prev := by
  rw [chain.link_result, set_next_prev]
  by_cases hxpos : x = pos
  · subst hxpos
    simp
  · rw [set_prev_ne _ _ hxpos, set_next_prev, set_prev_ne _ _ hxs, if_neg hxpos]

/-- The heap produced by a successful `chain_segment::unlink`. -/
def chain_segment.unlink_result (h : Heap) (s nx pv : Nat) : Heap :=
  set_prev (set_next (set_next (set_prev h nx (some pv)) pv (some nx)) s none) s none

theorem chain_segment.unlink_eq (h : Heap) (s nx pv : Nat)
    (hnx : (h s).next = some nx) (hpv : (h s).prev = some pv) (hsnx : s ≠ nx) :
    chain_segment.unlink h s = some (chain_segment.unlink_result h s nx pv) := by
  have h1 : (set_prev h nx (some pv) s).prev = some pv := by
    rw [set_prev_ne _ _ hsnx, hpv]
  have h2 : (set_prev h nx (some pv) s).next = some nx := by
    rw [set_prev_next, hnx]
  simp only [chain_segment.unlink, hnx, hpv, h1, h2, chain_segment.unlink_result]

theorem chain_segment.unlink_result_self (h : Heap) (s nx pv : Nat) :
    chain_segment.unlink_result h s nx pv s = ⟨none, none⟩ := by
  have : (chain_segment.unlink_result h s nx pv s).next = none := by
    rw [chain_segment.unlink_result, set_prev_next, set_next_self]
  have hp : (chain_segment.unlink_result h s nx pv s).prev = none := by
    rw [chain_segment.unlink_result, set_prev_self]
  cases hcell : chain_segment.unlink_result h s nx pv s
  rw [hcell] at this hp
  simp at this hp
  simp [this, hp]

theorem chain_segment.unlink_result_next (h : Heap) (s nx pv x : Nat) (hxs : x ≠ s) :
    (chain_segment.unlink_result h s nx pv x).next =
      if x = pv then some nx else (h x).next := by
  rw [chain_segment.unlink_result, set_prev_next, set_next_ne _ _ hxs]
  by_cases hxpv : x = pv
  · subst hxpv; simp
  · rw [set_next_ne _ _ hxpv, set_prev_next, if_neg hxpv]

theorem chain_segment.unlink_result_prev (h : Heap) (s nx pv x : Nat) (hxs : x ≠ s) :
    (chain_segment.unlink_result h s nx pv x).prev =
      if x = nx then some pv else (h x).prev := by
  rw [chain_segment.unlink_result, set_prev_ne _ _ hxs, set_next_prev, set_next_prev]
  by_cases hxnx : x = nx
  · subst hxnx; simp
  · rw [set_prev_ne _ _ hxnx, if_neg hxnx]

theorem mem_ring_left {x sent : Nat} {l₁ l₂ : List Nat} (hx : x ∈ sent :: l₁) :
    x ∈ sent :: (l₁ ++ l₂) := by
  simp at hx ⊢; tauto

theorem mem_ring_right {x sent : Nat} {l₁ l₂ : List Nat} (hx : x ∈ sent :: l₂) :
    x ∈ sent :: (l₁ ++ l₂) := by
  simp at hx ⊢; tauto

theorem ring_nodup_parts {sent : Nat} {l₁ l₂ : List Nat}
    (hnd : (sent :: (l₁ ++ l₂)).Nodup) :
    sent ∉ l₁ ∧ sent ∉ l₂ ∧ l₁.Nodup ∧ l₂.Nodup ∧ ∀ x ∈ l₁, x ∉ l₂ := by
  rw [List.nodup_cons, List.nodup_append] at hnd
  obtain ⟨hsent, hn₁, hn₂, hdisj⟩ := hnd
  simp only [List.mem_append, not_or] at hsent
  exact ⟨hsent.1, hsent.2, hn₁, hn₂, fun x hx => hdisj hx⟩

theorem ring_sep_left {sent : Nat} {l₁ l₂ : List Nat}
    (hnd : (sent :: (l₁ ++ l₂)).Nodup) {x : Nat} (hx : x ∈ l₁) :
    x ≠ l₂.headD sent := by
  obtain ⟨hs₁, _, _, _, hdisj⟩ := ring_nodup_parts hnd
  rcases (by simpa using headD_mem sent l₂ : l₂.headD sent = sent ∨ l₂.headD sent ∈ l₂) with he | he
  · rw [he]; exact fun hc => hs₁ (hc ▸ hx)
  · exact fun hc => hdisj x hx (hc ▸ he)

theorem ring_sep_right {sent : Nat} {l₁ l₂ : List Nat}
    (hnd : (sent :: (l₁ ++ l₂)).Nodup) {x : Nat} (hx : x ∈ l₂) :
    x ≠ l₁.getLastD sent := by
  obtain ⟨_, hs₂, _, _, hdisj⟩ := ring_nodup_parts hnd
  rcases (by simpa using getLastD_mem sent l₁ : l₁.getLastD sent = sent ∨ l₁.getLastD sent ∈ l₁) with he | he
  · rw [he]; exact fun hc => hs₂ (hc ▸ hx)
  · exact fun hc => hdisj _ he (hc ▸ hx)

/-- Specification of `chain::link`: inserting an unlinked, fresh
segment `s` immediately before the position `l₂.headD sent` (the head
of `l₂`, or `end()` when `l₂ = []`) succeeds, returns an iterator to
`s`, and produces the ring with `s` inserted at that spot. -/
theorem chain.link_spec (h : Heap) (sent : Nat) (l₁ l₂ : List Nat) (s : Nat)
    (hring : isRing h sent (l₁ ++ l₂))
    (hs : h s = ⟨none, none⟩)
    (hfresh : s ∉ sent :: (l₁ ++ l₂)) :
    chain.link h (l₂.headD sent) s =
      some (chain.link_result h (l₂.headD sent) (l₁.getLastD sent) s, s) ∧
    isRing (chain.link_result h (l₂.headD sent) (l₁.getLastD sent) s) sent (l₁ ++ s :: l₂) := by
  obtain ⟨hpath, hnd⟩ := hring
  obtain ⟨hfront, hback⟩ := pathFrom_split_at h sent l₁ l₂ hpath
  have hlp : linkedPair h (l₁.getLastD sent) (l₂.headD sent) :=
    pathFrom_last h sent l₁ _ hfront
  have hpmem : l₁.getLastD sent ∈ sent :: (l₁ ++ l₂) :=
    mem_ring_left (getLastD_mem sent l₁)
  have hposmem : l₂.headD sent ∈ sent :: (l₁ ++ l₂) :=
    mem_ring_right (headD_mem sent l₂)
  have hsp : s ≠ l₁.getLastD sent := fun he => hfresh (he ▸ hpmem)
  have hspos : s ≠ l₂.headD sent := fun he => hfresh (he ▸ hposmem)
  have hRs : chain.link_result h (l₂.headD sent) (l₁.getLastD sent) s s =
      ⟨some (l₂.headD sent), some (l₁.getLastD sent)⟩ :=
    chain.link_result_self h _ _ s hsp hspos
  obtain ⟨hsent₁, hsent₂, hnd₁, hnd₂, hdisj⟩ := ring_nodup_parts hnd
  refine ⟨chain.link_eq h _ _ s (by rw [hs]) hlp.2, ?_, ?_⟩
  · refine (pathFrom_append _ l₁ sent s l₂ sent).mpr ⟨?_, ?_⟩
    · refine pathFrom_retarget h _ sent l₁ (l₂.headD sent) s hfront
        (hnd.sublist ((List.sublist_append_left l₁ l₂).cons₂ sent)) ?_ ?_ ?_ ?_
      · intro x hx hxp
        rw [chain.link_result_next h _ _ s x
            (fun he => hfresh (he ▸ mem_ring_left hx)), if_neg hxp]
      · rw [chain.link_result_next h _ _ s _ (Ne.symm hsp), if_pos rfl]
      · intro x hx
        rw [chain.link_result_prev h _ _ s x
            (fun he => hfresh (he ▸ mem_ring_left (by simp [hx]))),
          if_neg (ring_sep_left hnd hx)]
      · rw [hRs]
    · refine pathFrom_restart h _ (l₁.getLastD sent) s l₂ sent hback ?_ ?_ ?_ ?_ ?_
      · simp only [List.nodup_append, List.nodup_cons]
        exact ⟨hnd₂, by simp, by simpa [List.disjoint_singleton] using hsent₂⟩
      · intro x hx
        rw [chain.link_result_next h _ _ s x
            (fun he => hfresh (he ▸ mem_ring_right (by simp [hx]))),
          if_neg (ring_sep_right hnd hx)]
      · intro x hx hxpos
        have hxmem : x ∈ sent :: (l₁ ++ l₂) := by
          rcases (by simpa using hx : x ∈ l₂ ∨ x = sent) with h' | h'
          · exact mem_ring_right (by simp [h'])
          · simp [h']
        rw [chain.link_result_prev h _ _ s x (fun he => hfresh (he ▸ hxmem)),
          if_neg hxpos]
      · rw [chain.link_result_prev h _ _ s _ (Ne.symm hspos), if_pos rfl]
      · rw [hRs]
  · have : sent :: (l₁ ++ s :: l₂) = (sent :: l₁) ++ s :: l₂ := by simp
    rw [this, List.nodup_middle, List.nodup_cons]
    have h₂ : sent :: (l₁ ++ l₂) = (sent :: l₁) ++ l₂ := by simp
    rw [h₂] at hnd hfresh
    exact ⟨hfresh, hnd⟩

/-- Separating the removed node from what remains of the ring. -/
theorem ring_nodup_remove {sent s : Nat} {l₁ l₂ : List Nat}
    (hnd : (sent :: (l₁ ++ s :: l₂)).Nodup) :
    s ∉ sent :: (l₁ ++ l₂) ∧ (sent :: (l₁ ++ l₂)).Nodup := by
  have h₁ : sent :: (l₁ ++ s :: l₂) = (sent :: l₁) ++ s :: l₂ := by simp
  rw [h₁, List.nodup_middle, List.nodup_cons] at hnd
  have h₂ : sent :: (l₁ ++ l₂) = (sent :: l₁) ++ l₂ := by simp
  rw [h₂]
  exact hnd

/-- Specification of `chain_segment::unlink` on a linked segment of a
well-formed ring: it succeeds, the segment's cell becomes all-null, and
the remaining ring closes over the former neighbors. -/
theorem chain_segment.unlink_spec (h : Heap) (sent : Nat) (l₁ l₂ : List Nat) (s : Nat)
    (hring : isRing h sent (l₁ ++ s :: l₂)) :
    chain_segment.unlink h s =
      some (chain_segment.unlink_result h s (l₂.headD sent) (l₁.getLastD sent)) ∧
    isRing (chain_segment.unlink_result h s (l₂.headD sent) (l₁.getLastD sent)) sent
      (l₁ ++ l₂) := by
  obtain ⟨hpath, hnd⟩ := hring
  obtain ⟨hsfresh, hnd'⟩ := ring_nodup_remove hnd
  obtain ⟨hfront, hback⟩ := pathFrom_split_at h sent l₁ (s :: l₂) hpath
  simp only [List.headD_cons] at hfront
  obtain ⟨hps, hrest⟩ : linkedPair h (l₁.getLastD sent) s ∧ pathFrom h s l₂ sent := hback
  have hnx : (h s).next = some (l₂.headD sent) := pathFrom_head h s l₂ sent hrest
  have hpv : (h s).prev = some (l₁.getLastD sent) := hps.2
  have hpmem : l₁.getLastD sent ∈ sent :: (l₁ ++ l₂) :=
    mem_ring_left (getLastD_mem sent l₁)
  have hposmem : l₂.headD sent ∈ sent :: (l₁ ++ l₂) :=
    mem_ring_right (headD_mem sent l₂)
  have hsp : s ≠ l₁.getLastD sent := fun he => hsfresh (he ▸ hpmem)
  have hsnx : s ≠ l₂.headD sent := fun he => hsfresh (he ▸ hposmem)
  obtain ⟨hsent₁, hsent₂, hnd₁, hnd₂, hdisj⟩ := ring_nodup_parts hnd'
  refine ⟨chain_segment.unlink_eq h s _ _ hnx hpv hsnx, ?_, hnd'⟩
  refine pathFrom_glue _ sent l₁ l₂ ?_ ?_
  · refine pathFrom_retarget h _ sent l₁ s (l₂.headD sent) hfront
      (hnd'.sublist ((List.sublist_append_left l₁ l₂).cons₂ sent)) ?_ ?_ ?_ ?_
    · intro x hx hxp
      rw [chain_segment.unlink_result_next h s _ _ x
          (fun he => hsfresh (he ▸ mem_ring_left hx)), if_neg hxp]
    · rw [chain_segment.unlink_result_next h s _ _ _ (Ne.symm hsp), if_pos rfl]
    · intro x hx
      rw [chain_segment.unlink_result_prev h s _ _ x
          (fun he => hsfresh (he ▸ mem_ring_left (by simp [hx]))),
        if_neg (ring_sep_left hnd' hx)]
    · rw [chain_segment.unlink_result_prev h s _ _ _ (Ne.symm hsnx), if_pos rfl]
  · refine pathFrom_restart h _ s (l₁.getLastD sent) l₂ sent hrest ?_ ?_ ?_ ?_ ?_
    · simp only [List.nodup_append, List.nodup_cons]
      exact ⟨hnd₂, by simp, by simpa [List.disjoint_singleton] using hsent₂⟩
    · intro x hx
      rw [chain_segment.unlink_result_next h s _ _ x
          (fun he => hsfresh (he ▸ mem_ring_right (by simp [hx]))),
        if_neg (ring_sep_right hnd' hx)]
    · intro x hx hxnx
      have hxmem : x ∈ sent :: (l₁ ++ l₂) := by
        rcases (by simpa using hx : x ∈ l₂ ∨ x = sent) with h' | h'
        · exact mem_ring_right (by simp [h'])
        · simp [h']
      rw [chain_segment.unlink_result_prev h s _ _ x (fun he => hsfresh (he ▸ hxmem)),
        if_neg hxnx]
    · rw [chain_segment.unlink_result_prev h s _ _ _ (Ne.symm hsnx), if_pos rfl]
    · rw [chain_segment.unlink_result_next h s _ _ _ (Ne.symm hsp), if_pos rfl]

/-- The heap produced by a successful segment move (`move_core`). -/
def chain_segment.move_result (h : Heap) (dst src n p : Nat) : Heap :=
  set_next (set_prev (hupd (hupd h dst (h src)) src ⟨none, none⟩) n (some dst)) p (some dst)

theorem chain_segment.move_core_eq (st : State) (dst src n p : Nat)
    (hn : (st.ptrs src).next = some n) (hp : (st.ptrs src).prev = some p)
    (hds : dst ≠ src) (hdn : dst ≠ n) :
    chain_segment.move_core st dst src =
      some ⟨chain_segment.move_result st.ptrs dst src n p,
            vupd st.vals dst (st.vals src)⟩ := by
  have h2dst : hupd (hupd st.ptrs dst (st.ptrs src)) src ⟨none, none⟩ dst = st.ptrs src := by
    rw [hupd_ne _ _ hds, hupd_self]
  have h3dst : (set_prev (hupd (hupd st.ptrs dst (st.ptrs src)) src ⟨none, none⟩)
      n (some dst) dst).prev = some p := by
    rw [set_prev_ne _ _ hdn, h2dst, hp]
  simp only [chain_segment.move_core, chain_segment.fix_foreign_links, h2dst, hn,
    h3dst, Option.map_some', chain_segment.move_result]

theorem chain_segment.move_result_dst (h : Heap) (dst src n p : Nat)
    (hds : dst ≠ src) (hdn : dst ≠ n) (hdp : dst ≠ p) :
    chain_segment.move_result h dst src n p dst = h src := by
  rw [chain_segment.move_result, set_next_ne _ _ hdp, set_prev_ne _ _ hdn,
    hupd_ne _ _ hds, hupd_self]

theorem chain_segment.move_result_src (h : Heap) (dst src n p : Nat)
    (hsn : src ≠ n) (hsp : src ≠ p) :
    chain_segment.move_result h dst src n p src = ⟨none, none⟩ := by
  rw [chain_segment.move_result, set_next_ne _ _ hsp, set_prev_ne _ _ hsn, hupd_self]

theorem chain_segment.move_result_next (h : Heap) (dst src n p x : Nat)
    (hxd : x ≠ dst) (hxs : x ≠ src) :
    (chain_segment.move_result h dst src n p x).next =
      if x = p then some dst else (h x).next := by
  by_cases hxp : x = p
  · subst hxp; simp [chain_segment.move_result]
  · rw [chain_segment.move_result, set_next_ne _ _ hxp, set_prev_next,
      hupd_ne _ _ hxs, hupd_ne _ _ hxd, if_neg hxp]

theorem chain_segment.move_result_prev (h : Heap) (dst src n p x : Nat)
    (hxd : x ≠ dst) (hxs : x ≠ src) :
    (chain_segment.move_result h dst src n p x).prev =
      if x = n then some dst else (h x).prev := by
  rw [chain_segment.move_result, set_next_prev]
  by_cases hxn : x = n
  · subst hxn; simp
  · rw [set_prev_ne _ _ hxn, hupd_ne _ _ hxs, hupd_ne _ _ hxd, if_neg hxn]

/-- Specification of the segment move core on a linked source: the
destination takes over the exact ring position of the source (the
former neighbors now point at the destination), the source cell
becomes all-null, and the payload is transferred. -/
theorem chain_segment.move_spec (st : State) (sent : Nat) (l₁ l₂ : List Nat) (dst src : Nat)
    (hring : isRing st.ptrs sent (l₁ ++ src :: l₂))
    (hfresh : dst ∉ sent :: (l₁ ++ src :: l₂)) :
    chain_segment.move_core st dst src =
      some ⟨chain_segment.move_result st.ptrs dst src (l₂.headD sent) (l₁.getLastD sent),
            vupd st.vals dst (st.vals src)⟩ ∧
    isRing (chain_segment.move_result st.ptrs dst src (l₂.headD sent) (l₁.getLastD sent))
      sent (l₁ ++ dst :: l₂) ∧
    chain_segment.move_result st.ptrs dst src (l₂.headD sent) (l₁.getLastD sent) src =
      ⟨none, none⟩ := by
  obtain ⟨hpath, hnd⟩ := hring
  obtain ⟨hsrcfresh, hnd'⟩ := ring_nodup_remove hnd
  obtain ⟨hfront, hback⟩ := pathFrom_split_at st.ptrs sent l₁ (src :: l₂) hpath
  simp only [List.headD_cons] at hfront
  obtain ⟨hps, hrest⟩ : linkedPair st.ptrs (l₁.getLastD sent) src ∧
      pathFrom st.ptrs src l₂ sent := hback
  have hn : (st.ptrs src).next = some (l₂.headD sent) := pathFrom_head st.ptrs src l₂ sent hrest
  have hp : (st.ptrs src).prev = some (l₁.getLastD sent) := hps.2
  have hpmem : l₁.getLastD sent ∈ sent :: (l₁ ++ l₂) :=
    mem_ring_left (getLastD_mem sent l₁)
  have hposmem : l₂.headD sent ∈ sent :: (l₁ ++ l₂) :=
    mem_ring_right (headD_mem sent l₂)
  have hsrcp : src ≠ l₁.getLastD sent := fun he => hsrcfresh (he ▸ hpmem)
  have hsrcn : src ≠ l₂.headD sent := fun he => hsrcfresh (he ▸ hposmem)
  have hdmem : ∀ x ∈ sent :: (l₁ ++ l₂), x ≠ dst := by
    intro x hx he
    apply hfresh
    rcases (by simpa using hx : x = sent ∨ x ∈ l₁ ∨ x ∈ l₂) with h' | h' | h'
    · simp [← he, h']
    · exact he ▸ mem_ring_left (by simp [h'])
    · exact he ▸ mem_ring_right (by simp [h'])
  have hds : dst ≠ src := fun he => hfresh (by simp [he])
  have hdn : dst ≠ l₂.headD sent := Ne.symm (hdmem _ hposmem)
  have hdp : dst ≠ l₁.getLastD sent := Ne.symm (hdmem _ hpmem)
  have hMdst : chain_segment.move_result st.ptrs dst src (l₂.headD sent) (l₁.getLastD sent) dst
      = st.ptrs src := chain_segment.move_result_dst st.ptrs dst src _ _ hds hdn hdp
  refine ⟨chain_segment.move_core_eq st dst src _ _ hn hp hds hdn, ⟨?_, ?_⟩,
    chain_segment.move_result_src st.ptrs dst src _ _ hsrcn hsrcp⟩
  · refine (pathFrom_append _ l₁ sent dst l₂ sent).mpr ⟨?_, ?_⟩
    · refine pathFrom_retarget st.ptrs _ sent l₁ src dst hfront
        (hnd'.sublist ((List.sublist_append_left l₁ l₂).cons₂ sent)) ?_ ?_ ?_ ?_
      · intro x hx hxp
        have hx' : x ∈ sent :: (l₁ ++ l₂) := mem_ring_left hx
        rw [chain_segment.move_result_next st.ptrs dst src _ _ x (hdmem x hx')
            (fun he => hsrcfresh (he ▸ hx')), if_neg hxp]
      · rw [chain_segment.move_result_next st.ptrs dst src _ _ _ hdp.symm
            (Ne.symm hsrcp), if_pos rfl]
      · intro x hx
        have hx' : x ∈ sent :: (l₁ ++ l₂) := mem_ring_left (by simp [hx])
        rw [chain_segment.move_result_prev st.ptrs dst src _ _ x (hdmem x hx')
            (fun he => hsrcfresh (he ▸ hx')), if_neg (ring_sep_left hnd' hx)]
      · rw [hMdst, hp]
    · refine pathFrom_restart st.ptrs _ src dst l₂ sent hrest ?_ ?_ ?_ ?_ ?_
      · obtain ⟨hsent₁, hsent₂, hnd₁, hnd₂, hdisj⟩ := ring_nodup_parts hnd'
        simp only [List.nodup_append, List.nodup_cons]
        exact ⟨hnd₂, by simp, by simpa [List.disjoint_singleton] using hsent₂⟩
      · intro x hx
        have hx' : x ∈ sent :: (l₁ ++ l₂) := mem_ring_right (by simp [hx])
        rw [chain_segment.move_result_next st.ptrs dst src _ _ x (hdmem x hx')
            (fun he => hsrcfresh (he ▸ hx')), if_neg (ring_sep_right hnd' hx)]
      · intro x hx hxn
        have hx' : x ∈ sent :: (l₁ ++ l₂) := by
          rcases (by simpa using hx : x ∈ l₂ ∨ x = sent) with h' | h'
          · exact mem_ring_right (by simp [h'])
          · simp [h']
        rw [chain_segment.move_result_prev st.ptrs dst src _ _ x (hdmem x hx')
            (fun he => hsrcfresh (he ▸ hx')), if_neg hxn]
      · rw [chain_segment.move_result_prev st.ptrs dst src _ _ _ hdn.symm
            (Ne.symm hsrcn), if_pos rfl]
      · rw [hMdst, hn]
  · have h₁ : sent :: (l₁ ++ dst :: l₂) = (sent :: l₁) ++ dst :: l₂ := by simp
    rw [h₁, List.nodup_middle, List.nodup_cons]
    have h₂ : sent :: (l₁ ++ l₂) = (sent :: l₁) ++ l₂ := by simp
    rw [h₂] at hnd' hdmem
    exact ⟨fun hc => hdmem dst hc rfl, hnd'⟩

theorem chain.clear_loop_succ (h : Heap) (sent cur fuel : Nat) :
    chain.clear_loop h sent cur (fuel + 1) =
      if cur = sent then some h
      else
        match (h cur).next with
        | none => none
        | some nx => chain.clear_loop (hupd h cur ⟨none, none⟩) sent nx fuel := rfl

theorem chain.clear_loop_spec (sent : Nat) :
    ∀ (l : List Nat) (c : Nat) (h : Heap),
      nextPath h c l sent → sent ∉ c :: l → (c :: l).Nodup →
      ∃ h', chain.clear_loop h sent c (l.length + 2) = some h' ∧
        (∀ x ∈ c :: l, h' x = ⟨none, none⟩) ∧
        (∀ x, x ∉ c :: l → h' x = h x)
  | [], c, h, hnp, hsent, _ => by
    have hcs : c ≠ sent := by simp at hsent; exact fun he => hsent he.symm
    refine ⟨hupd h c ⟨none, none⟩, ?_, ?_, ?_⟩
    · have hl : ([] : List Nat).length + 2 = 1 + 1 := rfl
      rw [hl, chain.clear_loop_succ, if_neg hcs]
      have hnp' : (h c).next = some sent := hnp
      simp only [hnp']
      rw [chain.clear_loop_succ, if_pos rfl]
    · intro x hx
      simp at hx
      subst hx
      simp
    · intro x hx
      simp at hx
      exact hupd_ne _ _ hx
  | b :: t, c, h, hnp, hsent, hnd => by
    have hcs : c ≠ sent := by simp at hsent; exact fun he => hsent.1 he.symm
    have hcbt : c ∉ b :: t := by
      rw [List.nodup_cons] at hnd
      exact hnd.1
    obtain ⟨h', heq, hin, hout⟩ :=
      chain.clear_loop_spec sent t b (hupd h c ⟨none, none⟩)
        (nextPath_congr h _ b t sent
          (fun x hx => by rw [hupd_ne _ _ (fun (he : x = c) => hcbt (he ▸ hx))]) hnp.2)
        (by simp at hsent ⊢; tauto)
        (by rw [List.nodup_cons] at hnd; exact hnd.2)
    refine ⟨h', ?_, ?_, ?_⟩
    · rw [show (b :: t).length + 2 = (t.length + 2) + 1 by simp only [List.length_cons],
        chain.clear_loop_succ, if_neg hcs]
      simp only [hnp.1]
      exact heq
    · intro x hx
      rcases (by simpa using hx : x = c ∨ x ∈ b :: t) with rfl | h'
      · rw [hout x hcbt, hupd_self]
      · exact hin x h'
    · intro x hx
      have hxc : x ≠ c := by simp at hx; tauto
      have hxbt : x ∉ b :: t := by simp at hx ⊢; tauto
      rw [hout x hxbt, hupd_ne _ _ hxc]

/-- Specification of `chain::clear` on a well-formed ring: with enough
fuel for the walk, it succeeds, the sentinel becomes self-referential
(the chain is empty), and every formerly linked segment's cell becomes
all-null; no other cell is touched. -/
theorem chain.clear_spec (h : Heap) (sent : Nat) (l : List Nat)
    (hring : isRing h sent l) :
    ∃ h', chain.clear h sent (l.length + 1) = some h' ∧
      h' sent = ⟨some sent, some sent⟩ ∧
      (∀ x ∈ l, h' x = ⟨none, none⟩) ∧
      (∀ x, x ≠ sent → x ∉ l → h' x = h x) ∧
      isRing h' sent [] := by
  obtain ⟨hpath, hnd⟩ := hring
  have hhead : (h sent).next = some (l.headD sent) := pathFrom_head h sent l sent hpath
  cases l with
  | nil =>
    refine ⟨hupd h sent ⟨some sent, some sent⟩, ?_, by simp, by simp, ?_, ?_⟩
    · rw [chain.clear]
      simp only [hhead, List.headD_nil]
      rw [show (List.nil (α := Nat)).length + 1 = 0 + 1 from rfl,
        chain.clear_loop_succ, if_pos rfl]
    · intro x hx _
      exact hupd_ne _ _ hx
    · exact ⟨⟨by simp, by simp⟩, by simp⟩
  | cons b t =>
    have hsentbt : sent ∉ b :: t := (List.nodup_cons.mp hnd).1
    have hndbt : (b :: t).Nodup := (List.nodup_cons.mp hnd).2
    obtain ⟨h', heq, hin, hout⟩ :=
      chain.clear_loop_spec sent t b (hupd h sent ⟨some sent, some sent⟩)
        (nextPath_congr h _ b t sent
          (fun x hx => by rw [hupd_ne _ _ (fun (he : x = sent) => hsentbt (he ▸ hx))])
          (pathFrom_nextPath h b t sent hpath.2))
        hsentbt hndbt
    have hsent' : h' sent = ⟨some sent, some sent⟩ := by
      rw [hout sent hsentbt, hupd_self]
    refine ⟨h', ?_, hsent', hin, ?_, ⟨⟨by rw [hsent'], by rw [hsent']⟩, by simp⟩⟩
    · rw [chain.clear]
      simp only [hhead, List.headD_cons]
      rw [show (b :: t).length + 1 = t.length + 2 by simp only [List.length_cons]]
      exact heq
    · intro x hxs hxl
      rw [hout x hxl, hupd_ne _ _ hxs]

theorem chain.seg_list_loop_succ (h : Heap) (sent cur fuel : Nat) :
    chain.seg_list_loop h sent cur (fuel + 1) =
      if cur = sent then some []
      else
        match (h cur).next with
        | none => none
        | some nx => (chain.seg_list_loop h sent nx fuel).map (cur :: ·) := rfl

theorem chain.seg_list_loop_spec (h : Heap) (sent : Nat) :
    ∀ (l : List Nat) (c : Nat), nextPath h c l sent → sent ∉ c :: l →
      chain.seg_list_loop h sent c (l.length + 2) = some (c :: l)
  | [], c, hnp, hs => by
    have hcs : c ≠ sent := by simp at hs; exact fun he => hs he.symm
    have hnp' : (h c).next = some sent := hnp
    have hl : ([] : List Nat).length + 2 = 1 + 1 := rfl
    rw [hl, chain.seg_list_loop_succ, if_neg hcs]
    simp only [hnp']
    rw [chain.seg_list_loop_succ, if_pos rfl]
    rfl
  | b :: t, c, hnp, hs => by
    have hcs : c ≠ sent := by simp at hs; exact fun he => hs.1 he.symm
    have hrec := chain.seg_list_loop_spec h sent t b hnp.2 (by simp at hs ⊢; tauto)
    have hnp' : (h c).next = some b := hnp.1
    rw [show (b :: t).length + 2 = (t.length + 2) + 1 by simp only [List.length_cons],
      chain.seg_list_loop_succ, if_neg hcs]
    simp only [hnp', hrec, Option.map_some']

/-- Specification of the `segments()` traversal: on a well-formed ring
it yields exactly the segment list. -/
theorem chain.seg_list_spec (h : Heap) (sent : Nat) (l : List Nat)
    (hring : isRing h sent l) :
    chain.seg_list h sent (l.length + 1) = some l := by
  obtain ⟨hpath, hnd⟩ := hring
  have hhead : (h sent).next = some (l.headD sent) := pathFrom_head h sent l sent hpath
  cases l with
  | nil =>
    rw [chain.seg_list]
    simp only [hhead, List.headD_nil]
    have hl : ([] : List Nat).length + 1 = 0 + 1 := rfl
    rw [hl, chain.seg_list_loop_succ, if_pos rfl]
  | cons b t =>
    rw [chain.seg_list]
    simp only [hhead, List.headD_cons]
    rw [show (b :: t).length + 1 = t.length + 2 by simp only [List.length_cons]]
    exact chain.seg_list_loop_spec h sent t b
      (pathFrom_nextPath h b t sent hpath.2) (List.nodup_cons.mp hnd).1

/-- Specification of `chain::size` on a well-formed ring. -/
theorem chain.size_spec (h : Heap) (sent : Nat) (l : List Nat)
    (hring : isRing h sent l) :
    chain.size h sent (l.length + 1) = some l.length := by
  rw [chain.size, chain.seg_list_spec h sent l hring, Option.map_some']

theorem chain.advance_loop_succ (h : Heap) (sent cur n : Nat) :
    chain.advance_loop h sent cur (n + 1) =
      if cur = sent then none
      else
        match (h cur).next with
        | none => none
        | some nx => chain.advance_loop h sent nx n := rfl

theorem chain.advance_from_sent (h : Heap) (sent k : Nat) :
    chain.advance_loop h sent sent (k + 1) = none := by
  rw [chain.advance_loop_succ, if_pos rfl]

theorem chain.advance_to_end (h : Heap) (sent : Nat) :
    ∀ (l : List Nat) (c : Nat), nextPath h c l sent → sent ∉ c :: l →
      chain.advance_loop h sent c (l.length + 1) = some sent
  | [], c, hnp, hs => by
    have hcs : c ≠ sent := by simp at hs; exact fun he => hs he.symm
    have hnp' : (h c).next = some sent := hnp
    have hl : ([] : List Nat).length + 1 = 0 + 1 := rfl
    rw [hl, chain.advance_loop_succ, if_neg hcs]
    simp only [hnp']
    rfl
  | b :: t, c, hnp, hs => by
    have hcs : c ≠ sent := by simp at hs; exact fun he => hs.1 he.symm
    have hnp' : (h c).next = some b := hnp.1
    rw [show (b :: t).length + 1 = (t.length + 1) + 1 by simp only [List.length_cons],
      chain.advance_loop_succ, if_neg hcs]
    simp only [hnp']
    exact chain.advance_to_end h sent t b hnp.2 (by simp at hs ⊢; tauto)

theorem chain.advance_add (h : Heap) (sent : Nat) :
    ∀ (m : Nat) (c : Nat) (n : Nat),
      chain.advance_loop h sent c (m + n) =
        (chain.advance_loop h sent c m).bind fun x => chain.advance_loop h sent x n
  | 0, c, n => by simp [chain.advance_loop]
  | m + 1, c, n => by
    rw [show m + 1 + n = (m + n) + 1 by omega, chain.advance_loop_succ]
    by_cases hcs : c = sent
    · rw [if_pos hcs, chain.advance_loop_succ, if_pos hcs]
      rfl
    · rw [if_neg hcs, chain.advance_loop_succ, if_neg hcs]
      cases hnx : (h c).next with
      | none => rfl
      | some nx => exact chain.advance_add h sent m nx n

/-- Specification of `chain::operator[]` for an out-of-range index on
a well-formed ring: the access always takes the fatal-assert path
(either an increment past `end()` or the dereference at `end()`). -/
theorem chain.nth_spec (h : Heap) (sent : Nat) (l : List Nat) (idx : Nat)
    (hring : isRing h sent l) (hidx : l.length ≤ idx) :
    chain.nth h sent idx = none := by
  obtain ⟨hpath, hnd⟩ := hring
  have hhead : (h sent).next = some (l.headD sent) := pathFrom_head h sent l sent hpath
  cases l with
  | nil =>
    rw [chain.nth]
    simp only [hhead, List.headD_nil]
    cases idx with
    | zero => simp [chain.advance_loop]
    | succ k => rw [chain.advance_from_sent]
  | cons b t =>
    rw [chain.nth]
    simp only [hhead, List.headD_cons]
    have hsentbt : sent ∉ b :: t := (List.nodup_cons.mp hnd).1
    have hnp : nextPath h b t sent := pathFrom_nextPath h b t sent hpath.2
    have hsplit : idx = (t.length + 1) + (idx - (t.length + 1)) := by
      simp only [List.length_cons] at hidx; omega
    rw [hsplit, chain.advance_add, chain.advance_to_end h sent t b hnp hsentbt]
    cases idx - (t.length + 1) with
    | zero => simp [chain.advance_loop]
    | succ k => simp [chain.advance_from_sent]

/-- Specification of chain move assignment on two disjoint well-formed
chains: the destination takes over exactly the source's segments in
order (the segments themselves are the same nodes), the source becomes
empty, the destination's former segments are all unlinked, and no
other cell is touched. -/
theorem chain.move_assign_spec (h : Heap) (dstS srcS : Nat) (ldst lsrc : List Nat)
    (hdst : isRing h dstS ldst) (hsrc : isRing h srcS lsrc)
    (hdisj : ∀ x ∈ dstS :: ldst, x ∉ srcS :: lsrc) :
    ∃ h', chain.move_assign h dstS srcS (ldst.length + 1) = some h' ∧
      isRing h' dstS lsrc ∧ isRing h' srcS [] ∧
      (∀ x ∈ ldst, h' x = ⟨none, none⟩) ∧
      (∀ x, x ≠ dstS → x ∉ ldst → x ≠ srcS → x ∉ lsrc → h' x = h x) := by
  obtain ⟨h1, hclr, h1dst, h1ldst, h1frame, h1ring⟩ := chain.clear_spec h dstS ldst hdst
  have hdd : dstS ∉ ldst := (List.nodup_cons.mp hdst.2).1
  have hsrc_pres : ∀ x ∈ srcS :: lsrc, h1 x = h x := by
    intro x hx
    exact h1frame x (fun he => hdisj dstS (by simp) (he ▸ hx))
      (fun hc => hdisj x (by simp [hc]) hx)
  have hsrc1 : isRing h1 srcS lsrc := by
    refine ⟨pathFrom_congr h h1 srcS lsrc srcS ?_ ?_ hsrc.1, hsrc.2⟩
    · intro x hx; rw [hsrc_pres x hx]
    · intro x hx
      rw [hsrc_pres x (by simp at hx ⊢; tauto)]
  cases lsrc with
  | nil =>
    have hbranch : (h1 srcS).next = some srcS := hsrc1.1.1
    refine ⟨h1, ?_, h1ring, hsrc1, h1ldst, fun x h₁ h₂ _ _ => h1frame x h₁ h₂⟩
    rw [chain.move_assign, hclr, Option.some_bind, if_pos hbranch]
  | cons b t =>
    have hndsrc := hsrc.2
    have hsrcnl : srcS ∉ b :: t := (List.nodup_cons.mp hndsrc).1
    have hndbt : (b :: t).Nodup := (List.nodup_cons.mp hndsrc).2
    have hbs : b ≠ srcS := fun he => hsrcnl (by simp [← he])
    have hbranch : (h1 srcS).next = some b := by
      have := pathFrom_head h1 srcS (b :: t) srcS hsrc1.1
      simpa using this
    have hpmem : t.getLastD b ∈ b :: t := getLastD_mem b t
    have hps : t.getLastD b ≠ srcS := fun he => hsrcnl (he ▸ hpmem)
    have hcell : h1 srcS = ⟨some b, some (t.getLastD b)⟩ := by
      have hprev : (h1 srcS).prev = some (t.getLastD b) := by
        have := (pathFrom_last h1 srcS (b :: t) srcS hsrc1.1).2
        rwa [List.getLastD_cons] at this
      have : h1 srcS = ⟨(h1 srcS).next, (h1 srcS).prev⟩ := rfl
      rw [this, hbranch, hprev]
    have hdmem : ∀ x ∈ srcS :: b :: t, dstS ≠ x := by
      intro x hx he
      exact hdisj dstS (by simp) (he ▸ hx)
    have hds : dstS ≠ srcS := hdmem srcS (by simp)
    have hdb : dstS ≠ b := hdmem b (by simp)
    have hdp : dstS ≠ t.getLastD b := hdmem _ (List.mem_cons_of_mem srcS hpmem)
    -- the heap after fix_moved_ptrs and the source-sentinel reset
    set h3 : Heap := set_next (hupd h1 dstS (h1 srcS)) (t.getLastD b) (some dstS) with hh3
    set h4 : Heap := set_prev h3 b (some dstS) with hh4
    set R : Heap := hupd h4 srcS ⟨some srcS, some srcS⟩ with hR
    have hfix : chain.fix_moved_ptrs (hupd h1 dstS (h1 srcS)) dstS = some h4 := by
      rw [chain.fix_moved_ptrs]
      have e1 : (hupd h1 dstS (h1 srcS) dstS).prev = some (t.getLastD b) := by
        rw [hupd_self, hcell]
      simp only [e1]
      have e2 : (set_next (hupd h1 dstS (h1 srcS)) (t.getLastD b) (some dstS) dstS).next
          = some b := by
        rw [set_next_ne _ _ hdp, hupd_self, hcell]
      simp only [e2]
    have hRsrc : R srcS = ⟨some srcS, some srcS⟩ := by rw [hR, hupd_self]
    have hRdst : R dstS = ⟨some b, some (t.getLastD b)⟩ := by
      rw [hR, hupd_ne _ _ hds, hh4, set_prev_ne _ _ hdb, hh3, set_next_ne _ _ hdp,
        hupd_self, hcell]
    have hRnext : ∀ x, x ≠ dstS → x ≠ srcS →
        (R x).next = if x = t.getLastD b then some dstS else (h1 x).next := by
      intro x hxd hxs
      rw [hR, hupd_ne _ _ hxs, hh4, set_prev_next]
      by_cases hxp : x = t.getLastD b
      · subst hxp; rw [hh3, set_next_self, if_pos rfl]
      · rw [hh3, set_next_ne _ _ hxp, hupd_ne _ _ hxd, if_neg hxp]
    have hRprev : ∀ x, x ≠ dstS → x ≠ srcS →
        (R x).prev = if x = b then some dstS else (h1 x).prev := by
      intro x hxd hxs
      rw [hR, hupd_ne _ _ hxs]
      by_cases hxb : x = b
      · subst hxb; rw [hh4, set_prev_self, if_pos rfl]
      · rw [hh4, set_prev_ne _ _ hxb, hh3, set_next_prev, hupd_ne _ _ hxd, if_neg hxb]
    have hRoff : ∀ x, x ≠ dstS → x ≠ srcS → x ≠ b → x ≠ t.getLastD b → R x = h1 x := by
      intro x hxd hxs hxb hxp
      rw [hR, hupd_ne _ _ hxs, hh4, set_prev_ne _ _ hxb, hh3, set_next_ne _ _ hxp,
        hupd_ne _ _ hxd]
    refine ⟨R, ?_, ⟨?_, ?_⟩, ⟨⟨by rw [hRsrc], by rw [hRsrc]⟩, by simp⟩, ?_, ?_⟩
    · rw [chain.move_assign, hclr, Option.some_bind,
        if_neg (by rw [hbranch]; exact fun hc => hbs (by simpa using hc))]
      simp only [hfix, Option.map_some']
    · refine ⟨⟨by rw [hRdst], ?_⟩, ?_⟩
      · rw [hRprev b (Ne.symm hdb) hbs, if_pos rfl]
      · refine pathFrom_retarget h1 R b t srcS dstS hsrc1.1.2 hndbt ?_ ?_ ?_ ?_
        · intro x hx hxp
          rw [hRnext x (Ne.symm (hdmem x (by simp [hx])))
              (fun he => hsrcnl (he ▸ hx)), if_neg hxp]
        · rw [hRnext _ (Ne.symm hdp) hps, if_pos rfl]
        · intro x hx
          have hxb : x ≠ b := fun he => (List.nodup_cons.mp hndbt).1 (he ▸ hx)
          rw [hRprev x (Ne.symm (hdmem x (by simp [hx])))
              (fun he => hsrcnl (he ▸ (by simp [hx] : x ∈ b :: t))), if_neg hxb]
        · rw [hRdst]
    · rw [List.nodup_cons]
      exact ⟨fun hc => hdisj dstS (by simp) (by simp [hc]), hndbt⟩
    · intro x hx
      have hxs : x ∉ srcS :: b :: t := hdisj x (by simp [hx])
      have hxd : x ≠ dstS := fun he => hdd (he ▸ hx)
      rw [hRoff x hxd (fun he => hxs (by simp [he]))
          (fun he => hxs (by simp [he]))
          (fun he => hxs (he ▸ List.mem_cons_of_mem srcS hpmem)), h1ldst x hx]
    · intro x hxd hxl hxs hxlsrc
      have hxb : x ≠ b := fun he => hxlsrc (by simp [he])
      have hxp : x ≠ t.getLastD b := fun he => hxlsrc (he ▸ hpmem)
      rw [hRoff x hxd hxs hxb hxp, h1frame x hxd hxl]

theorem chain_ptr.ext' (a b : chain_ptr) (hn : a.next = b.next) (hp : a.prev = b.prev) :
    a = b := by
  cases a; cases b; simp_all

/-- The segment move constructor is exactly the shared move core. -/
theorem chain_segment.move_ctor_eq (st : State) (dst src : Nat) :
    chain_segment.move_ctor st dst src = chain_segment.move_core st dst src := rfl

/-- On an unlinked destination, segment move assignment skips the
`unlink()` branch and is the shared move core. -/
theorem chain_segment.move_assign_unlinked (st : State) (dst src : Nat)
    (hdst : (st.ptrs dst).next = none) :
    chain_segment.move_assign st dst src = chain_segment.move_core st dst src := by
  simp [chain_segment.move_assign, chain_segment.is_linked, hdst]

/-- State-level `clear`: the payload map is untouched, because the C++
`clear` writes only link pointers. -/
def chain.clear_state (st : State) (sent fuel : Nat) : Option State :=
  (chain.clear st.ptrs sent fuel).map fun h => ⟨h, st.vals⟩

/-- Building a concrete heap from an address/cell association list
(for concrete test rings). -/
def heapOf (ps : List (Nat × chain_ptr)) : Heap :=
  fun x =>
    match ps.find? (fun p => p.1 == x) with
    | some p => p.2
    | none => ⟨none, none⟩

/-- A heap holding one chain with sentinel `0` and the single linked
segment `1`. -/
def ring1 : Heap := heapOf [(0, ⟨some 1, some 1⟩), (1, ⟨some 0, some 0⟩)]

/-- A heap holding one chain with sentinel `0` and linked segments
`[1, 2]` (so `1` and `2` are adjacent). -/
def ring2 : Heap := heapOf [(0, ⟨some 1, some 2⟩), (1, ⟨some 2, some 0⟩), (2, ⟨some 0, some 1⟩)]

/-- A heap holding two chains: sentinel `0` with segments `[1, 2]` and
sentinel `10` with segment `[11]`. -/
def tworings : Heap :=
  heapOf [(0, ⟨some 1, some 2⟩), (1, ⟨some 2, some 0⟩), (2, ⟨some 0, some 1⟩),
    (10, ⟨some 11, some 11⟩), (11, ⟨some 10, some 10⟩)]

/-- An all-zero payload map for concrete states. -/
def vals0 : Vals := fun _ => 0

/-- A heap holding one empty chain with sentinel `0`. -/
def ring0 : Heap := heapOf [(0, ⟨some 0, some 0⟩)]

@[simp] theorem vupd_self (v : Vals) (a : Nat) (x : Int) : vupd v a x a = x := by
  simp [vupd]

/-! ## Claim theorems -/

/-- Claim C1, counterexample: the claim "copy construction always
produces an unlinked segment, and copy assignment preserves an
already-linked destination's link" is false on the code.  The copy
operations are `= default`, so they copy the raw `chain_ptr` base: on
the concrete one-segment ring `ring1`, copy-constructing segment `2`
from the linked segment `1` yields `is_linked() == true`, and
copy-assigning the unlinked segment `3` onto the linked segment `1`
leaves `1` with both pointers null (its link is not preserved). -/
theorem claim_C1_counterexample :
    isRing ring1 0 [1] ∧
    chain_segment.is_linked ring1 1 = true ∧
    chain_segment.is_linked (chain_segment.copy_ctor ⟨ring1, vals0⟩ 2 1).ptrs 2 = true ∧
    chain_segment.is_linked ring1 3 = false ∧
    (chain_segment.copy_assign ⟨ring1, vals0⟩ 1 3).ptrs 1 = ⟨none, none⟩ := by
  decide

/-- Claim C1, amended: segment copy construction and copy assignment
(both defaulted) copy the payload value and the raw `next`/`prev`
fields verbatim from the source; hence the copy's link state equals the
source's (a copy of an unlinked source is unlinked, a copy of a linked
source reports linked), and copy assignment overwrites whatever link
state the destination had. -/
theorem claim_C1_copy_is_memberwise (st : State) (dst src : Nat) :
    (chain_segment.copy_ctor st dst src).ptrs dst = st.ptrs src ∧
    (chain_segment.copy_ctor st dst src).vals dst = st.vals src ∧
    chain_segment.copy_assign st dst src = chain_segment.copy_ctor st dst src ∧
    chain_segment.is_linked (chain_segment.copy_ctor st dst src).ptrs dst =
      chain_segment.is_linked st.ptrs src := by
  refine ⟨by simp [chain_segment.copy_ctor], by simp [chain_segment.copy_ctor], rfl, ?_⟩
  simp [chain_segment.is_linked, chain_segment.copy_ctor]

/-- Claim C2: evaluation of `chain_segment::swap` at the failing input.
On the ring `0 → 1 → 2 → 0` (segments `1` and `2` adjacent), the member
swap corrupts the ring: both segments end up as self-loops and the
sentinel points at `1` from both sides, instead of producing the ring
`0 → 2 → 1 → 0` the claim describes. -/
theorem claim_C2_swap_adjacent_eval :
    isRing ring2 0 [1, 2] ∧
    (chain_segment.swap ⟨ring2, vals0⟩ 1 2).map
        (fun st => (st.ptrs 0, st.ptrs 1, st.ptrs 2)) =
      some (⟨some 1, some 1⟩, ⟨some 1, some 1⟩, ⟨some 2, some 2⟩) ∧
    (chain_segment.swap ⟨ring2, vals0⟩ 1 2).map
        (fun st => decide (isRing st.ptrs 0 [2, 1])) = some false := by
  decide

/-- Claim C9: firing with zero registered listeners is a fatal assert
through `fire` (`none`), a plain `false` through `try_fire` with no
handler invoked; with at least one listener `try_fire` returns `true`. -/
theorem claim_C9_fire_no_listeners (ev : event) :
    (fire ev = none ↔ ev.member_listeners = [] ∧ ev.listeners = []) ∧
    ((try_fire ev).2 = false ↔ ev.member_listeners = [] ∧ ev.listeners = []) ∧
    ((try_fire ev).1 = [] ↔ ev.member_listeners = [] ∧ ev.listeners = []) := by
  obtain ⟨ml, ls⟩ := ev
  cases ml <;> cases ls <;> simp [fire, try_fire]

/-- Claim C9 witness: concrete events with zero and one listener. -/
theorem claim_C9_witness :
    (fire ⟨[], []⟩ = none ↔ ([] : List Nat) = [] ∧ ([] : List Nat) = []) ∧
    ((try_fire ⟨[], []⟩).2 = false ↔ ([] : List Nat) = [] ∧ ([] : List Nat) = []) ∧
    ((try_fire ⟨[], []⟩).1 = [] ↔ ([] : List Nat) = [] ∧ ([] : List Nat) = []) :=
  claim_C9_fire_no_listeners ⟨[], []⟩

/-- Claim C10: out-of-range numeric access never yields a segment: for
any well-formed ring and any index at least the chain's size, the
`operator[]` walk ends on the fatal-assert path (`none`); and `size()`
on that ring is indeed the segment count. -/
theorem claim_C10_index_out_of_range (h : Heap) (sent : Nat) (l : List Nat) (idx : Nat)
    (hring : isRing h sent l) (hidx : l.length ≤ idx) :
    chain.nth h sent idx = none ∧
    chain.size h sent (l.length + 1) = some l.length :=
  ⟨chain.nth_spec h sent l idx hring hidx, chain.size_spec h sent l hring⟩

/-- Claim C10 witness: on the concrete two-segment ring, access at the
exact size and past it both abort. -/
theorem claim_C10_witness :
    (chain.nth ring2 0 2 = none ∧ chain.size ring2 0 3 = some 2) ∧
    (chain.nth ring2 0 5 = none ∧ chain.size ring2 0 3 = some 2) :=
  ⟨claim_C10_index_out_of_range ring2 0 [1, 2] 2 (by decide) (by decide),
   claim_C10_index_out_of_range ring2 0 [1, 2] 5 (by decide) (by decide)⟩

/-- Claim C5: move-constructing or move-assigning a fresh (unlinked)
segment from a linked segment transfers the payload and the exact ring
position: the destination sits where the source was (former neighbors
now point at it), the source is fully unlinked, and the chain's
segment count is unchanged. -/
theorem claim_C5_segment_move (st : State) (sent : Nat) (l₁ l₂ : List Nat) (dst src : Nat)
    (hring : isRing st.ptrs sent (l₁ ++ src :: l₂))
    (hdst : st.ptrs dst = ⟨none, none⟩)
    (hfresh : dst ∉ sent :: (l₁ ++ src :: l₂)) :
    ∃ r, chain_segment.move_ctor st dst src = some r ∧
      chain_segment.move_assign st dst src = some r ∧
      isRing r.ptrs sent (l₁ ++ dst :: l₂) ∧
      r.ptrs src = ⟨none, none⟩ ∧
      r.vals dst = st.vals src ∧
      (l₁ ++ dst :: l₂).length = (l₁ ++ src :: l₂).length := by
  obtain ⟨hcore, hring', hsrc'⟩ := chain_segment.move_spec st sent l₁ l₂ dst src hring hfresh
  refine ⟨_, chain_segment.move_ctor_eq st dst src ▸ hcore,
    (chain_segment.move_assign_unlinked st dst src (by rw [hdst])).symm ▸ hcore,
    hring', hsrc', by simp, by simp⟩

/-- Claim C5 witness: in the one-chain heap `ring2`, moving segment `1`
into the fresh segment `5` puts `5` at `1`'s old position. -/
theorem claim_C5_witness :
    ∃ r, chain_segment.move_ctor ⟨ring2, vals0⟩ 5 1 = some r ∧
      chain_segment.move_assign ⟨ring2, vals0⟩ 5 1 = some r ∧
      isRing r.ptrs 0 ([] ++ 5 :: [2]) ∧
      r.ptrs 1 = ⟨none, none⟩ ∧
      r.vals 5 = vals0 1 ∧
      (([] : List Nat) ++ 5 :: [2]).length = (([] : List Nat) ++ 1 :: [2]).length :=
  claim_C5_segment_move ⟨ring2, vals0⟩ 0 [] [2] 5 1 (by decide) (by decide) (by decide)

/-- Claim C6: move-assigning chain `dstS` from chain `srcS` hands the
destination exactly the source's segments — the same nodes, in the same
order — empties the source, and unlinks the destination's former
segments. -/
theorem claim_C6_chain_move_assign (h : Heap) (dstS srcS : Nat) (ldst lsrc : List Nat)
    (hdst : isRing h dstS ldst) (hsrc : isRing h srcS lsrc)
    (hdisj : ∀ x ∈ dstS :: ldst, x ∉ srcS :: lsrc) :
    ∃ h', chain.move_assign h dstS srcS (ldst.length + 1) = some h' ∧
      isRing h' dstS lsrc ∧
      chain.seg_list h' dstS (lsrc.length + 1) = some lsrc ∧
      isRing h' srcS [] ∧ chain.empty h' srcS = true ∧
      (∀ x ∈ ldst, h' x = ⟨none, none⟩) := by
  obtain ⟨h', heq, hring', hsrc', hnull, _⟩ :=
    chain.move_assign_spec h dstS srcS ldst lsrc hdst hsrc hdisj
  exact ⟨h', heq, hring', chain.seg_list_spec h' dstS lsrc hring', hsrc',
    by simp [chain.empty, hsrc'.1.1], hnull⟩

/-- Claim C6 witness: moving the two-segment chain at sentinel `0` into
the one-segment chain at sentinel `10` of the concrete heap
`tworings`. -/
theorem claim_C6_witness :
    ∃ h', chain.move_assign tworings 10 0 2 = some h' ∧
      isRing h' 10 [1, 2] ∧
      chain.seg_list h' 10 3 = some [1, 2] ∧
      isRing h' 0 [] ∧ chain.empty h' 0 = true ∧
      (∀ x ∈ [11], h' x = ⟨none, none⟩) :=
  claim_C6_chain_move_assign tworings 10 0 [11] [1, 2] (by decide) (by decide) (by decide)

/-- Claim C7: `clear()` detaches every linked segment (each reports
`is_linked() == false` afterwards), leaves the chain empty and
well-formed, destroys no payload (the value map is returned untouched),
and chain destruction is exactly `clear()`. -/
theorem claim_C7_clear (h : Heap) (v : Vals) (sent : Nat) (l : List Nat)
    (hring : isRing h sent l) :
    ∃ h', chain.clear h sent (l.length + 1) = some h' ∧
      (∀ x ∈ l, chain_segment.is_linked h' x = false) ∧
      chain.empty h' sent = true ∧ isRing h' sent [] ∧
      chain.clear_state ⟨h, v⟩ sent (l.length + 1) = some ⟨h', v⟩ ∧
      chain.dtor h sent (l.length + 1) = chain.clear h sent (l.length + 1) := by
  obtain ⟨h', heq, hsent, hnull, _, hring'⟩ := chain.clear_spec h sent l hring
  refine ⟨h', heq, ?_, by simp [chain.empty, hsent], hring', ?_, rfl⟩
  · intro x hx
    simp [chain_segment.is_linked, hnull x hx]
  · rw [chain.clear_state, heq, Option.map_some']

/-- Claim C7 witness: clearing the concrete two-segment ring. -/
theorem claim_C7_witness :
    ∃ h', chain.clear ring2 0 3 = some h' ∧
      (∀ x ∈ [1, 2], chain_segment.is_linked h' x = false) ∧
      chain.empty h' 0 = true ∧ isRing h' 0 [] ∧
      chain.clear_state ⟨ring2, vals0⟩ 0 3 = some ⟨h', vals0⟩ ∧
      chain.dtor ring2 0 3 = chain.clear ring2 0 3 :=
  claim_C7_clear ring2 vals0 0 [1, 2] (by decide)

/-- Claim C8: linking a fresh unlinked segment anywhere and immediately
unlinking it restores the heap exactly — the very same function — so
the chain has its pre-link size and shape and the segment is unlinked
again; the unlink also returns the iterator to the old position. -/
theorem claim_C8_link_unlink_roundtrip (h : Heap) (sent : Nat) (l₁ l₂ : List Nat) (s : Nat)
    (hring : isRing h sent (l₁ ++ l₂)) (hs : h s = ⟨none, none⟩)
    (hfresh : s ∉ sent :: (l₁ ++ l₂)) :
    ∃ h1, chain.link h (l₂.headD sent) s = some (h1, s) ∧
      chain.unlink h1 sent s = some (h, l₂.headD sent) := by
  obtain ⟨heq, hring'⟩ := chain.link_spec h sent l₁ l₂ s hring hs hfresh
  obtain ⟨hpath, hnd⟩ := hring
  obtain ⟨hfront, hback⟩ := pathFrom_split_at h sent l₁ l₂ hpath
  have hlp : linkedPair h (l₁.getLastD sent) (l₂.headD sent) :=
    pathFrom_last h sent l₁ _ hfront
  have hpmem : l₁.getLastD sent ∈ sent :: (l₁ ++ l₂) :=
    mem_ring_left (getLastD_mem sent l₁)
  have hposmem : l₂.headD sent ∈ sent :: (l₁ ++ l₂) :=
    mem_ring_right (headD_mem sent l₂)
  have hsp : s ≠ l₁.getLastD sent := fun he => hfresh (he ▸ hpmem)
  have hspos : s ≠ l₂.headD sent := fun he => hfresh (he ▸ hposmem)
  have hssent : s ≠ sent := fun he => hfresh (by simp [he])
  have hRs : chain.link_result h (l₂.headD sent) (l₁.getLastD sent) s s =
      ⟨some (l₂.headD sent), some (l₁.getLastD sent)⟩ :=
    chain.link_result_self h _ _ s hsp hspos
  refine ⟨chain.link_result h (l₂.headD sent) (l₁.getLastD sent) s, heq, ?_⟩
  rw [chain.unlink, if_neg hssent]
  have hRsn : (chain.link_result h (l₂.headD sent) (l₁.getLastD sent) s s).next =
      some (l₂.headD sent) := by rw [hRs]
  simp only [hRsn]
  rw [chain_segment.unlink_eq _ s (l₂.headD sent) (l₁.getLastD sent)
    (by rw [hRs]) (by rw [hRs]) hspos]
  rw [Option.map_some']
  have hres : chain_segment.unlink_result
      (chain.link_result h (l₂.headD sent) (l₁.getLastD sent) s) s
      (l₂.headD sent) (l₁.getLastD sent) = h := by
    funext x
    by_cases hxs : x = s
    · subst hxs
      rw [chain_segment.unlink_result_self, hs]
    · refine chain_ptr.ext' _ _ ?_ ?_
      · rw [chain_segment.unlink_result_next _ s _ _ x hxs,
          chain.link_result_next h _ _ s x hxs]
        by_cases hxp : x = l₁.getLastD sent
        · rw [if_pos hxp, hxp, hlp.1]
        · rw [if_neg hxp, if_neg hxp]
      · rw [chain_segment.unlink_result_prev _ s _ _ x hxs,
          chain.link_result_prev h _ _ s x hxs]
        by_cases hxpos : x = l₂.headD sent
        · rw [if_pos hxpos, hxpos, hlp.2]
        · rw [if_neg hxpos, if_neg hxpos]
  rw [hres]

/-- Claim C8 witness: link segment `7` before segment `2` of the
concrete ring and unlink it again, restoring `ring2` exactly. -/
theorem claim_C8_witness :
    ∃ h1, chain.link ring2 ([2].headD 0) 7 = some (h1, 7) ∧
      chain.unlink h1 0 7 = some (ring2, [2].headD 0) :=
  claim_C8_link_unlink_roundtrip ring2 0 [1] [2] 7 (by decide) (by decide) (by decide)

/-- Claim C3: ring well-formedness (`isRing` — empty chain
self-referential, next/prev walks closing over all linked segments
exactly once, mutual `next->prev`/`prev->next` consistency, unlinked
cells all-null) is preserved by every public operation: `link` at any
valid position, `link_front`, `link_back`, segment `unlink`, `clear`,
`place`, segment move construction/assignment, segment destruction
(both on a linked and on an unlinked segment), chain move
assignment/construction, and chain destruction (which is `clear`). -/
theorem claim_C3_invariants :
    (∀ (h : Heap) (sent : Nat) (l₁ l₂ : List Nat) (s : Nat),
      isRing h sent (l₁ ++ l₂) → h s = ⟨none, none⟩ → s ∉ sent :: (l₁ ++ l₂) →
      isRing (chain.link_result h (l₂.headD sent) (l₁.getLastD sent) s) sent
        (l₁ ++ s :: l₂)) ∧
    (∀ (h : Heap) (sent : Nat) (l : List Nat) (s : Nat),
      isRing h sent l → h s = ⟨none, none⟩ → s ∉ sent :: l →
      ∃ r, chain.link_front h sent s = some r ∧ isRing r.1 sent (s :: l)) ∧
    (∀ (h : Heap) (sent : Nat) (l : List Nat) (s : Nat),
      isRing h sent l → h s = ⟨none, none⟩ → s ∉ sent :: l →
      ∃ r, chain.link_back h sent s = some r ∧ isRing r.1 sent (l ++ [s])) ∧
    (∀ (h : Heap) (sent : Nat) (l₁ l₂ : List Nat) (s : Nat),
      isRing h sent (l₁ ++ s :: l₂) →
      ∃ h', chain_segment.unlink h s = some h' ∧ isRing h' sent (l₁ ++ l₂) ∧
        h' s = ⟨none, none⟩) ∧
    (∀ (h : Heap) (sent : Nat) (l : List Nat),
      isRing h sent l →
      ∃ h', chain.clear h sent (l.length + 1) = some h' ∧ isRing h' sent [] ∧
        ∀ x ∈ l, h' x = ⟨none, none⟩) ∧
    (∀ (st : State) (sent : Nat) (l₁ l₂ : List Nat) (s : Nat) (v : Int),
      isRing st.ptrs sent (l₁ ++ l₂) → s ∉ sent :: (l₁ ++ l₂) →
      ∃ r, chain.place st (l₂.headD sent) s v = some r ∧
        isRing r.1.ptrs sent (l₁ ++ s :: l₂)) ∧
    (∀ (st : State) (sent : Nat) (l₁ l₂ : List Nat) (dst src : Nat),
      isRing st.ptrs sent (l₁ ++ src :: l₂) → st.ptrs dst = ⟨none, none⟩ →
      dst ∉ sent :: (l₁ ++ src :: l₂) →
      ∃ r, chain_segment.move_ctor st dst src = some r ∧
        chain_segment.move_assign st dst src = some r ∧
        isRing r.ptrs sent (l₁ ++ dst :: l₂) ∧ r.ptrs src = ⟨none, none⟩) ∧
    (∀ (h : Heap) (sent : Nat) (l₁ l₂ : List Nat) (s : Nat),
      isRing h sent (l₁ ++ s :: l₂) →
      ∃ h', chain_segment.dtor h s = some h' ∧ isRing h' sent (l₁ ++ l₂) ∧
        h' s = ⟨none, none⟩) ∧
    (∀ (h : Heap) (s : Nat), h s = ⟨none, none⟩ → chain_segment.dtor h s = some h) ∧
    (∀ (h : Heap) (dstS srcS : Nat) (ldst lsrc : List Nat),
      isRing h dstS ldst → isRing h srcS lsrc →
      (∀ x ∈ dstS :: ldst, x ∉ srcS :: lsrc) →
      ∃ h', chain.move_assign h dstS srcS (ldst.length + 1) = some h' ∧
        isRing h' dstS lsrc ∧ isRing h' srcS [] ∧ ∀ x ∈ ldst, h' x = ⟨none, none⟩) ∧
    (∀ (h : Heap) (dstS srcS : Nat) (lsrc : List Nat),
      isRing h srcS lsrc → dstS ∉ srcS :: lsrc →
      ∃ h', chain.move_ctor h dstS srcS 1 = some h' ∧
        isRing h' dstS lsrc ∧ isRing h' srcS []) ∧
    (∀ (h : Heap) (sent fuel : Nat), chain.dtor h sent fuel = chain.clear h sent fuel) := by
  refine ⟨?_, ?_, ?_, ?_, ?_, ?_, ?_, ?_, ?_, ?_, ?_, fun _ _ _ => rfl⟩
  · intro h sent l₁ l₂ s hring hs hfresh
    exact (chain.link_spec h sent l₁ l₂ s hring hs hfresh).2
  · intro h sent l s hring hs hfresh
    have hhead : (h sent).next = some (l.headD sent) := pathFrom_head h sent l sent hring.1
    have hsp := chain.link_spec h sent [] l s hring hs hfresh
    refine ⟨(chain.link_result h (l.headD sent) ((List.nil (α := Nat)).getLastD sent) s, s),
      ?_, hsp.2⟩
    rw [chain.link_front, hhead]
    exact hsp.1
  · intro h sent l s hring hs hfresh
    have hsp := chain.link_spec h sent l [] s (by simpa using hring) hs
      (by simpa using hfresh)
    refine ⟨_, hsp.1, by simpa using hsp.2⟩
  · intro h sent l₁ l₂ s hring
    obtain ⟨heq, hring'⟩ := chain_segment.unlink_spec h sent l₁ l₂ s hring
    exact ⟨_, heq, hring', chain_segment.unlink_result_self h s _ _⟩
  · intro h sent l hring
    obtain ⟨h', heq, _, hnull, _, hring'⟩ := chain.clear_spec h sent l hring
    exact ⟨h', heq, hring', hnull⟩
  · intro st sent l₁ l₂ s v hring hfresh
    have h0ring : isRing (hupd st.ptrs s ⟨none, none⟩) sent (l₁ ++ l₂) := by
      refine ⟨pathFrom_congr st.ptrs _ sent (l₁ ++ l₂) sent ?_ ?_ hring.1, hring.2⟩
      · intro x hx
        rw [hupd_ne _ _ (fun (he : x = s) => hfresh (he ▸ hx))]
      · intro x hx
        have hx' : x ∈ sent :: (l₁ ++ l₂) := by simp at hx ⊢; tauto
        rw [hupd_ne _ _ (fun (he : x = s) => hfresh (he ▸ hx'))]
    obtain ⟨heq, hring'⟩ :=
      chain.link_spec _ sent l₁ l₂ s h0ring (hupd_self _ _ _) hfresh
    refine ⟨(⟨chain.link_result (hupd st.ptrs s ⟨none, none⟩) (l₂.headD sent)
        (l₁.getLastD sent) s, vupd st.vals s v⟩, s), ?_, hring'⟩
    rw [chain.place]
    simp only [heq, Option.map_some']
  · intro st sent l₁ l₂ dst src hring hdst hfresh
    obtain ⟨hcore, hring', hsrc'⟩ := chain_segment.move_spec st sent l₁ l₂ dst src hring hfresh
    exact ⟨_, chain_segment.move_ctor_eq st dst src ▸ hcore,
      (chain_segment.move_assign_unlinked st dst src (by rw [hdst])).symm ▸ hcore,
      hring', hsrc'⟩
  · intro h sent l₁ l₂ s hring
    have hsplit := pathFrom_split_at h sent l₁ (s :: l₂) hring.1
    have hnext : (h s).next = some (l₂.headD sent) := pathFrom_head h s l₂ sent hsplit.2.2
    obtain ⟨hueq, huring⟩ := chain_segment.unlink_spec h sent l₁ l₂ s hring
    have hl : chain_segment.is_linked h s = true := by
      simp [chain_segment.is_linked, hnext]
    rw [chain_segment.dtor, if_pos hl]
    exact ⟨_, hueq, huring, chain_segment.unlink_result_self h s _ _⟩
  · intro h s hs
    have hl : chain_segment.is_linked h s = false := by
      simp [chain_segment.is_linked, hs]
    rw [chain_segment.dtor, if_neg (by simp [hl])]
  · intro h dstS srcS ldst lsrc hdst hsrc hdisj
    obtain ⟨h', heq, h1, h2, h3, _⟩ :=
      chain.move_assign_spec h dstS srcS ldst lsrc hdst hsrc hdisj
    exact ⟨h', heq, h1, h2, h3⟩
  · intro h dstS srcS lsrc hsrc hfresh
    have hdstring : isRing (hupd h dstS ⟨some dstS, some dstS⟩) dstS [] := by
      refine ⟨⟨?_, ?_⟩, by simp⟩ <;> simp
    have hsrc' : isRing (hupd h dstS ⟨some dstS, some dstS⟩) srcS lsrc := by
      refine ⟨pathFrom_congr h _ srcS lsrc srcS ?_ ?_ hsrc.1, hsrc.2⟩
      · intro x hx
        rw [hupd_ne _ _ (fun (he : x = dstS) => hfresh (he ▸ hx))]
      · intro x hx
        have hx' : x ∈ srcS :: lsrc := by simp at hx ⊢; tauto
        rw [hupd_ne _ _ (fun (he : x = dstS) => hfresh (he ▸ hx'))]
    obtain ⟨h', heq, h1, h2, _, _⟩ :=
      chain.move_assign_spec (hupd h dstS ⟨some dstS, some dstS⟩) dstS srcS [] lsrc
        hdstring hsrc' (by simpa using hfresh)
    exact ⟨h', heq, h1, h2⟩

/-- Claim C3 witness: every preserved operation exercised on the
concrete rings. -/
theorem claim_C3_witness :
    isRing (chain.link_result ring2 2 1 5) 0 ([1] ++ 5 :: [2]) ∧
    (∃ r, chain.link_front ring2 0 5 = some r ∧ isRing r.1 0 (5 :: [1, 2])) ∧
    (∃ r, chain.link_back ring2 0 5 = some r ∧ isRing r.1 0 ([1, 2] ++ [5])) ∧
    (∃ h', chain_segment.unlink ring2 2 = some h' ∧ isRing h' 0 ([1] ++ []) ∧
      h' 2 = ⟨none, none⟩) ∧
    (∃ h', chain.clear ring2 0 (([1, 2] : List Nat).length + 1) = some h' ∧
      isRing h' 0 [] ∧ ∀ x ∈ [1, 2], h' x = ⟨none, none⟩) ∧
    (∃ r, chain.place ⟨ring2, vals0⟩ 2 5 42 = some r ∧
      isRing r.1.ptrs 0 ([1] ++ 5 :: [2])) ∧
    (∃ r, chain_segment.move_ctor ⟨ring2, vals0⟩ 5 1 = some r ∧
      chain_segment.move_assign ⟨ring2, vals0⟩ 5 1 = some r ∧
      isRing r.ptrs 0 ([] ++ 5 :: [2]) ∧ r.ptrs 1 = ⟨none, none⟩) ∧
    (∃ h', chain_segment.dtor ring2 1 = some h' ∧ isRing h' 0 ([] ++ [2]) ∧
      h' 1 = ⟨none, none⟩) ∧
    chain_segment.dtor ring2 5 = some ring2 ∧
    (∃ h', chain.move_assign tworings 10 0 (([11] : List Nat).length + 1) = some h' ∧
      isRing h' 10 [1, 2] ∧ isRing h' 0 [] ∧ ∀ x ∈ [11], h' x = ⟨none, none⟩) ∧
    (∃ h', chain.move_ctor tworings 20 0 1 = some h' ∧
      isRing h' 20 [1, 2] ∧ isRing h' 0 []) ∧
    chain.dtor ring2 0 7 = chain.clear ring2 0 7 :=
  ⟨claim_C3_invariants.1 ring2 0 [1] [2] 5 (by decide) (by decide) (by decide),
   claim_C3_invariants.2.1 ring2 0 [1, 2] 5 (by decide) (by decide) (by decide),
   claim_C3_invariants.2.2.1 ring2 0 [1, 2] 5 (by decide) (by decide) (by decide),
   claim_C3_invariants.2.2.2.1 ring2 0 [1] [] 2 (by decide),
   claim_C3_invariants.2.2.2.2.1 ring2 0 [1, 2] (by decide),
   claim_C3_invariants.2.2.2.2.2.1 ⟨ring2, vals0⟩ 0 [1] [2] 5 42 (by decide) (by decide),
   claim_C3_invariants.2.2.2.2.2.2.1 ⟨ring2, vals0⟩ 0 [] [2] 5 1 (by decide) (by decide)
     (by decide),
   claim_C3_invariants.2.2.2.2.2.2.2.1 ring2 0 [] [2] 1 (by decide),
   claim_C3_invariants.2.2.2.2.2.2.2.2.1 ring2 5 (by decide),
   claim_C3_invariants.2.2.2.2.2.2.2.2.2.1 tworings 10 0 [11] [1, 2] (by decide) (by decide)
     (by decide),
   claim_C3_invariants.2.2.2.2.2.2.2.2.2.2.1 tworings 20 0 [1, 2] (by decide) (by decide),
   claim_C3_invariants.2.2.2.2.2.2.2.2.2.2.2 ring2 0 7⟩

/-- Claim C4: `link(position, segment)` inserts immediately before the
position and returns an iterator to the new segment, so the
`segments()` traversal equals the insertion order; the spec's concrete
scenario (A at front, B at front, C at back, D before C) yields the
order B, A, D, C. -/
theorem claim_C4_insertion_order :
    (∀ (h : Heap) (sent : Nat) (l₁ l₂ : List Nat) (s : Nat),
      isRing h sent (l₁ ++ l₂) → h s = ⟨none, none⟩ → s ∉ sent :: (l₁ ++ l₂) →
      chain.link h (l₂.headD sent) s =
        some (chain.link_result h (l₂.headD sent) (l₁.getLastD sent) s, s) ∧
      isRing (chain.link_result h (l₂.headD sent) (l₁.getLastD sent) s) sent
        (l₁ ++ s :: l₂) ∧
      chain.seg_list (chain.link_result h (l₂.headD sent) (l₁.getLastD sent) s) sent
        ((l₁ ++ s :: l₂).length + 1) = some (l₁ ++ s :: l₂)) ∧
    (chain.link_front ring0 0 1).bind (fun r1 =>
      (chain.link_front r1.1 0 2).bind fun r2 =>
      (chain.link_back r2.1 0 3).bind fun r3 =>
      (chain.link r3.1 3 4).map fun r4 =>
        chain.seg_list r4.1 0 5) = some (some [2, 1, 4, 3]) := by
  constructor
  · intro h sent l₁ l₂ s hring hs hfresh
    obtain ⟨heq, hring'⟩ := chain.link_spec h sent l₁ l₂ s hring hs hfresh
    exact ⟨heq, hring', chain.seg_list_spec _ sent _ hring'⟩
  · decide

/-- Claim C4 witness: inserting segment `5` before segment `2` of the
concrete ring `[1, 2]` gives traversal `[1, 5, 2]`. -/
theorem claim_C4_witness :
    chain.link ring2 2 5 = some (chain.link_result ring2 2 1 5, 5) ∧
    isRing (chain.link_result ring2 2 1 5) 0 ([1] ++ 5 :: [2]) ∧
    chain.seg_list (chain.link_result ring2 2 1 5) 0 (([1] ++ 5 :: [2]).length + 1) =
      some ([1] ++ 5 :: [2]) :=
  claim_C4_insertion_order.1 ring2 0 [1] [2] 5 (by decide) (by decide) (by decide)

end Heapfree
